import Mathlib

/-!
Verification development for the kerchunk-cookbook repository.

Part 1 embeds the string-processing code that the notebooks author
themselves (output-file naming and the filename-to-time coordinate rule).
Python strings are embedded as `List Char`; each helper mirrors one
Python string operation used by the notebooks.

Part 2 models, from the specification's own words, the reference-index
data model and the Extractor / Combiner / Virtual-Dataset-View components
whose implementations live in external libraries (kerchunk, fsspec) and
are therefore not part of this repository's sources.
-/

/-! ## Python string primitives -/

/-- Python `s.split("/")[-1]`: the part of the string after the last `'/'`
(the whole string when no `'/'` occurs). -/
def lastComp (l : List Char) : List Char :=
  ((l.reverse.takeWhile (fun c => c ≠ '/')).reverse)

/-- Python `s.split("_")[0]`: the part of the string before the first `'_'`
(the whole string when no `'_'` occurs). -/
def preUnderscore (l : List Char) : List Char :=
  l.takeWhile (fun c => c ≠ '_')

/-- Python `s.split(pat)[0]` for a non-empty separator `pat`: the part of
the string before the first occurrence of `pat` (the whole string when
`pat` does not occur). -/
def beforeFirst (pat : List Char) : List Char → List Char
  | [] => []
  | c :: rest => if pat.isPrefixOf (c :: rest) then [] else c :: beforeFirst pat rest

/-- Whether `pat` occurs as a contiguous substring. -/
def containsSub (pat : List Char) : List Char → Bool
  | [] => pat.isEmpty
  | c :: rest => pat.isPrefixOf (c :: rest) || containsSub pat rest

/-- Python `s.strip(chars)`: remove from both ends every character that is
a member of the character set `chars` (not suffix/prefix removal). -/
def pyStrip (chars : List Char) (l : List Char) : List Char :=
  ((l.dropWhile (fun c => c ∈ chars)).reverse.dropWhile (fun c => c ∈ chars)).reverse

/-- Removing the exact suffix `suf` when present (what `.strip` is often
mistaken for); used to contrast with `pyStrip`. -/
def stripEndSuffix (suf : List Char) (l : List Char) : List Char :=
  if suf.isSuffixOf l then l.take (l.length - suf.length) else l

/-! ## The NetCDF notebook's reference-file naming

From `generate_json_reference` in the NetCDF case-study notebook:
`fname = fil.split("/")[-1].strip(".nc")` and
`outf = f"{output_dir}/{fname}.json"`. -/

/-- Embeds `fil.split("/")[-1].strip(".nc")` from the NetCDF notebook's
`generate_json_reference`. -/
def netcdf_fname (fil : List Char) : List Char :=
  pyStrip ".nc".data (lastComp fil)

/-- Embeds `outf = f"{output_dir}/{fname}.json"` from the NetCDF
notebook's `generate_json_reference`. -/
def netcdf_outf (dir fil : List Char) : List Char :=
  dir ++ '/' :: (netcdf_fname fil ++ ".json".data)

example : netcdf_fname "s3://bucket/ncdata.nc".data = "data".data := by decide
example : netcdf_fname "s3://bucket/data.nc".data = "data".data := by decide
example : netcdf_fname "WRFDETAR_01H_20221231_00_072.nc".data
    = "WRFDETAR_01H_20221231_00_072".data := by decide

/-! ## The GeoTIFF notebook's reference-file naming

From `generate_json_reference` in the GeoTIFF source file:
`fname = fil.split("/")[-1].split("_")[0]` and
`outf = f"{output_dir}/{fname}.json"`. -/

/-- Embeds `fil.split("/")[-1].split("_")[0]` from the GeoTIFF notebook's
`generate_json_reference`. -/
def gtiff_fname (fil : List Char) : List Char :=
  preUnderscore (lastComp fil)

/-- Embeds `outf = f"{output_dir}/{fname}.json"` from the GeoTIFF
notebook's `generate_json_reference`. -/
def gtiff_outf (dir fil : List Char) : List Char :=
  dir ++ '/' :: (gtiff_fname fil ++ ".json".data)

example : gtiff_fname "s3://b/202307010100_FIN-ACRR1H-3067-1KM.tif".data
    = "202307010100".data := by decide

/-! ## `datetime.strptime` with format `"%Y%m%d%H%M"`

CPython's `_strptime` compiles the format to the anchored regex
`(\d{4})(1[0-2]|0[1-9]|[1-9])(3[01]|[12]\d|0[1-9]|[1-9])(2[0-3]|[0-1]\d|\d)([0-5]\d|\d)`,
requires the whole string to be consumed, and then constructs a
`datetime`, which additionally validates the day against the month length
and requires `1 <= year`.  The regex alternations put the two-digit
alternatives before the one-digit ones and backtrack in that order; the
parser below performs the same depth-first search. -/

/-- A parsed `%Y%m%d%H%M` timestamp. -/
structure DateTime5 where
  year : Nat
  month : Nat
  day : Nat
  hour : Nat
  minute : Nat
deriving DecidableEq, Repr

/-- ASCII decimal digit test. -/
def isDigitB (c : Char) : Bool := 48 ≤ c.toNat && c.toNat ≤ 57

/-- Value of an ASCII digit character. -/
def dval (c : Char) : Nat := c.toNat - 48

/-- `%Y`: exactly four digits. -/
def parseY : List Char → Option (Nat × List Char)
  | a :: b :: c :: d :: rest =>
      if isDigitB a && isDigitB b && isDigitB c && isDigitB d then
        some (1000 * dval a + 100 * dval b + 10 * dval c + dval d, rest)
      else none
  | _ => none

/-- Two-digit field alternative with value bounds `lo ≤ v ≤ hi`. -/
def cands2 (lo hi : Nat) : List Char → List (Nat × List Char)
  | a :: b :: rest =>
      if isDigitB a && isDigitB b
          && lo ≤ 10 * dval a + dval b && 10 * dval a + dval b ≤ hi then
        [(10 * dval a + dval b, rest)]
      else []
  | _ => []

/-- One-digit field alternative with value bounds `lo ≤ v ≤ hi`. -/
def cands1 (lo hi : Nat) : List Char → List (Nat × List Char)
  | a :: rest =>
      if isDigitB a && lo ≤ dval a && dval a ≤ hi then [(dval a, rest)] else []
  | [] => []

/-- Candidates of one `%m`/`%d`/`%H`/`%M` field in regex preference order:
the two-digit alternatives come before the one-digit ones. -/
def fieldCands (lo2 hi2 lo1 hi1 : Nat) (l : List Char) : List (Nat × List Char) :=
  cands2 lo2 hi2 l ++ cands1 lo1 hi1 l

/-- Depth-first search over candidates: regex backtracking order. -/
def firstSome : List α → (α → Option β) → Option β
  | [], _ => none
  | a :: as, f =>
      match f a with
      | some b => some b
      | none => firstSome as f

/-- The anchored full match of the `%Y%m%d%H%M` regex with backtracking. -/
def matchYmdHM (l : List Char) : Option DateTime5 :=
  (parseY l).bind fun yr =>
    firstSome (fieldCands 1 12 1 9 yr.2) fun mr =>
      firstSome (fieldCands 1 31 1 9 mr.2) fun dr =>
        firstSome (fieldCands 0 23 0 9 dr.2) fun hr =>
          firstSome (fieldCands 0 59 0 9 hr.2) fun mir =>
            if mir.2.isEmpty then some ⟨yr.1, mr.1, dr.1, hr.1, mir.1⟩ else none

/-- Gregorian leap-year test, as in Python's `datetime`. -/
def isLeap (y : Nat) : Bool := (y % 4 == 0 && y % 100 != 0) || y % 400 == 0

/-- Number of days of month `m` of year `y`, as in Python's `datetime`. -/
def daysInMonth (y m : Nat) : Nat :=
  if m = 2 then (if isLeap y then 29 else 28)
  else if m = 4 ∨ m = 6 ∨ m = 9 ∨ m = 11 then 30 else 31

/-- `datetime.strptime(s, "%Y%m%d%H%M")`: regex match, then the
`datetime` constructor's validation (`1 ≤ year`, day fits the month).
`none` models the `ValueError` raised by Python. -/
def strptimeYmdHM (l : List Char) : Option DateTime5 :=
  (matchYmdHM l).bind fun dt =>
    if 1 ≤ dt.year ∧ dt.day ≤ daysInMonth dt.year dt.month then some dt else none

example : strptimeYmdHM "202301010000".data = some ⟨2023, 1, 1, 0, 0⟩ := by decide
example : strptimeYmdHM "202307010100".data = some ⟨2023, 7, 1, 1, 0⟩ := by decide
example : strptimeYmdHM "20230101000".data = some ⟨2023, 1, 1, 0, 0⟩ := by decide
example : strptimeYmdHM "20231231".data = some ⟨2023, 1, 2, 3, 1⟩ := by decide
example : strptimeYmdHM "202302300000".data = none := by decide
example : strptimeYmdHM "000001010000".data = none := by decide
example : strptimeYmdHM "2023010100005".data = none := by decide
example : strptimeYmdHM "FIN-ACRR1H-3067-1KM".data = none := by decide

/-- Embeds the GeoTIFF notebook's coordinate rule:
`fn_to_time(index, fs, var, fn)` returns
`datetime.strptime(fn.split("/")[-1].split(".json")[0], "%Y%m%d%H%M")`;
`none` models the `ValueError` the Python code raises. -/
def fn_to_time (fn : List Char) : Option DateTime5 :=
  strptimeYmdHM (beforeFirst ".json".data (lastComp fn))

example : fn_to_time "/tmp/abc/202307010100.json".data = some ⟨2023, 7, 1, 1, 0⟩ := by
  decide
example : fn_to_time "/tmp/abc/202313010100.json".data = none := by decide

/-! ## Digit strings, their numeric values, and lexicographic order -/

/-- Numeric value of a most-significant-first decimal digit string. -/
def valDigits (l : List Char) : Nat :=
  l.foldl (fun a c => 10 * a + dval c) 0

/-- Year field of a 12-digit `%Y%m%d%H%M` timestamp string. -/
def tsYear (p : List Char) : Nat := valDigits (p.take 4)

/-- Month field of a 12-digit `%Y%m%d%H%M` timestamp string. -/
def tsMonth (p : List Char) : Nat := valDigits ((p.drop 4).take 2)

/-- Day field of a 12-digit `%Y%m%d%H%M` timestamp string. -/
def tsDay (p : List Char) : Nat := valDigits ((p.drop 6).take 2)

/-- Hour field of a 12-digit `%Y%m%d%H%M` timestamp string. -/
def tsHour (p : List Char) : Nat := valDigits ((p.drop 8).take 2)

/-- Minute field of a 12-digit `%Y%m%d%H%M` timestamp string. -/
def tsMin (p : List Char) : Nat := valDigits ((p.drop 10).take 2)

/-- A valid 12-digit `%Y%m%d%H%M` timestamp string: twelve decimal digits
whose zero-padded fields are a calendar-valid date-time. -/
def Valid12 (p : List Char) : Bool :=
  p.length == 12 && p.all isDigitB
    && decide (1 ≤ tsYear p)
    && decide (1 ≤ tsMonth p) && decide (tsMonth p ≤ 12)
    && decide (1 ≤ tsDay p) && decide (tsDay p ≤ daysInMonth (tsYear p) (tsMonth p))
    && decide (tsHour p ≤ 23) && decide (tsMin p ≤ 59)

example : Valid12 "202307010100".data = true := by decide
example : Valid12 "20230101000".data = false := by decide
example : Valid12 "202302300000".data = false := by decide

/-- Python's string `<=` on code points (`sorted` uses it), embedded on
`List Char` via code points. -/
def lexLe : List Char → List Char → Bool
  | [], _ => true
  | _ :: _, [] => false
  | a :: as, b :: bs =>
      if a.toNat < b.toNat then true
      else if b.toNat < a.toNat then false
      else lexLe as bs

theorem lexLe_trans (a b c : List Char) (hab : lexLe a b = true)
    (hbc : lexLe b c = true) : lexLe a c = true := by
  induction a generalizing b c with
  | nil => rfl
  | cons x xs ih =>
    match b, c with
    | [], _ => simp [lexLe] at hab
    | _ :: _, [] => simp [lexLe] at hbc
    | y :: ys, z :: zs =>
      rw [lexLe] at hab hbc ⊢
      split at hab
      · split at hbc
        · rw [if_pos (by omega)]
        · split at hbc
          · exact absurd hbc (by simp)
          · rw [if_pos (by omega)]
      · split at hab
        · exact absurd hab (by simp)
        · split at hbc
          · rw [if_pos (by omega)]
          · split at hbc
            · exact absurd hbc (by simp)
            · rw [if_neg (by omega), if_neg (by omega)]
              exact ih ys zs hab hbc

theorem lexLe_total (a b : List Char) : (lexLe a b || lexLe b a) = true := by
  induction a generalizing b with
  | nil => simp [lexLe]
  | cons x xs ih =>
    match b with
    | [] => simp [lexLe]
    | y :: ys =>
      rcases Nat.lt_trichotomy x.toNat y.toNat with h | h | h
      · simp [lexLe, h, Nat.lt_asymm h]
      · simp only [lexLe, h, Nat.lt_irrefl, if_false]
        exact ih ys
      · simp [lexLe, h, Nat.lt_asymm h]

theorem lexLe_append_left (d a b : List Char) :
    lexLe (d ++ a) (d ++ b) = lexLe a b := by
  induction d with
  | nil => rfl
  | cons c t ih =>
    simp only [List.cons_append, lexLe, Nat.lt_irrefl, if_false, if_neg (by omega : ¬ c.toNat < c.toNat)]
    exact ih

theorem dval_le_nine (c : Char) (h : isDigitB c = true) : dval c ≤ 9 := by
  simp [isDigitB] at h
  simp [dval]
  omega

theorem foldl_valDigits (a : Nat) (l : List Char) :
    l.foldl (fun x c => 10 * x + dval c) a = a * 10 ^ l.length + valDigits l := by
  induction l generalizing a with
  | nil => simp [valDigits]
  | cons c t ih =>
    simp only [List.foldl_cons, List.length_cons, valDigits]
    rw [ih (10 * a + dval c), ih (10 * 0 + dval c)]
    ring

theorem valDigits_cons (c : Char) (t : List Char) :
    valDigits (c :: t) = dval c * 10 ^ t.length + valDigits t := by
  simp only [valDigits, List.foldl_cons]
  rw [foldl_valDigits]
  simp only [valDigits]
  ring

theorem valDigits_lt (l : List Char) (h : ∀ c ∈ l, isDigitB c = true) :
    valDigits l < 10 ^ l.length := by
  induction l with
  | nil => simp [valDigits]
  | cons c t ih =>
    rw [valDigits_cons]
    have h1 : dval c ≤ 9 := dval_le_nine c (h c (by simp))
    have h2 : valDigits t < 10 ^ t.length := ih (fun x hx => h x (by simp [hx]))
    have h3 : dval c * 10 ^ t.length ≤ 9 * 10 ^ t.length :=
      Nat.mul_le_mul_right _ h1
    rw [List.length_cons, pow_succ]
    omega

theorem toNat_inj (a b : Char) (h : a.toNat = b.toNat) : a = b :=
  Char.eq_of_val_eq (UInt32.toNat.inj h)

/-- On equal-length digit strings, a strict lexicographic step (even with
an arbitrary common tail appended) strictly increases the numeric value. -/
theorem lex_strict_digits (a b s : List Char) (hlen : a.length = b.length)
    (ha : ∀ c ∈ a, isDigitB c = true) (hb : ∀ c ∈ b, isDigitB c = true)
    (hne : a ≠ b) (hle : lexLe (a ++ s) (b ++ s) = true) :
    valDigits a < valDigits b := by
  induction a generalizing b with
  | nil =>
    match b with
    | [] => exact absurd rfl hne
    | _ :: _ => simp at hlen
  | cons x xs ih =>
    match b with
    | [] => simp at hlen
    | y :: ys =>
      simp only [List.length_cons, Nat.succ.injEq] at hlen
      simp only [List.cons_append, lexLe] at hle
      split at hle
      · rename_i hlt
        have hdx : dval x < dval y := by
          have h1 : isDigitB x = true := ha x (by simp)
          have h2 : isDigitB y = true := hb y (by simp)
          simp [isDigitB] at h1 h2
          simp [dval]
          omega
        rw [valDigits_cons, valDigits_cons, hlen]
        have h3 : valDigits xs < 10 ^ ys.length := by
          rw [← hlen]
          exact valDigits_lt xs (fun c hc => ha c (by simp [hc]))
        have h4 : (dval x + 1) * 10 ^ ys.length ≤ dval y * 10 ^ ys.length :=
          Nat.mul_le_mul_right _ hdx
        have h5 : dval x * 10 ^ ys.length + valDigits xs
            < (dval x + 1) * 10 ^ ys.length := by
          have : (dval x + 1) * 10 ^ ys.length
              = dval x * 10 ^ ys.length + 10 ^ ys.length := by ring
          omega
        omega
      · split at hle
        · exact absurd hle (by simp)
        · rename_i h1 h2
          have hxy : x = y := toNat_inj x y (by omega)
          subst hxy
          have hne2 : xs ≠ ys := by
            intro hcon
            exact hne (by rw [hcon])
          have := ih ys hlen (fun c hc => ha c (List.mem_cons_of_mem _ hc))
            (fun c hc => hb c (List.mem_cons_of_mem _ hc)) hne2 hle
          rw [valDigits_cons, valDigits_cons, hlen]
          omega

/-! ## strptime on valid 12-digit timestamps -/

theorem firstSome_cons_of_some (a : α) (as : List α) (f : α → Option β) (b : β)
    (h : f a = some b) : firstSome (a :: as) f = some b := by
  rw [firstSome, h]

theorem daysInMonth_le (y m : Nat) : daysInMonth y m ≤ 31 := by
  unfold daysInMonth
  split
  · split <;> omega
  · split <;> omega

theorem destruct12 (p : List Char) (h : p.length = 12) :
    ∃ a0 a1 a2 a3 a4 a5 a6 a7 a8 a9 a10 a11,
      p = [a0, a1, a2, a3, a4, a5, a6, a7, a8, a9, a10, a11] := by
  rcases p with _ | ⟨a0, p⟩; · simp at h
  rcases p with _ | ⟨a1, p⟩; · simp at h
  rcases p with _ | ⟨a2, p⟩; · simp at h
  rcases p with _ | ⟨a3, p⟩; · simp at h
  rcases p with _ | ⟨a4, p⟩; · simp at h
  rcases p with _ | ⟨a5, p⟩; · simp at h
  rcases p with _ | ⟨a6, p⟩; · simp at h
  rcases p with _ | ⟨a7, p⟩; · simp at h
  rcases p with _ | ⟨a8, p⟩; · simp at h
  rcases p with _ | ⟨a9, p⟩; · simp at h
  rcases p with _ | ⟨a10, p⟩; · simp at h
  rcases p with _ | ⟨a11, p⟩; · simp at h
  rcases p with _ | ⟨a12, p⟩
  · exact ⟨a0, a1, a2, a3, a4, a5, a6, a7, a8, a9, a10, a11, rfl⟩
  · simp at h

/-- On a valid 12-digit timestamp the backtracking `%Y%m%d%H%M` matcher
commits to the all-two-digit decomposition, so `strptime` succeeds and
returns exactly the fixed-width field slices. -/
theorem strptime_valid12 (p : List Char) (h : Valid12 p = true) :
    strptimeYmdHM p = some ⟨tsYear p, tsMonth p, tsDay p, tsHour p, tsMin p⟩ := by
  simp only [Valid12, Bool.and_eq_true, beq_iff_eq, List.all_eq_true,
    decide_eq_true_eq] at h
  obtain ⟨⟨⟨⟨⟨⟨⟨⟨hl, hdig⟩, hy⟩, hm1⟩, hm2⟩, hd1⟩, hd2⟩, hh⟩, hmin⟩ := h
  obtain ⟨c0, c1, c2, c3, c4, c5, c6, c7, c8, c9, c10, c11, rfl⟩ := destruct12 p hl
  have d0 := hdig c0 (by simp)
  have d1 := hdig c1 (by simp)
  have d2 := hdig c2 (by simp)
  have d3 := hdig c3 (by simp)
  have d4 := hdig c4 (by simp)
  have d5 := hdig c5 (by simp)
  have d6 := hdig c6 (by simp)
  have d7 := hdig c7 (by simp)
  have d8 := hdig c8 (by simp)
  have d9 := hdig c9 (by simp)
  have d10 := hdig c10 (by simp)
  have d11 := hdig c11 (by simp)
  have ey : tsYear [c0, c1, c2, c3, c4, c5, c6, c7, c8, c9, c10, c11]
      = 1000 * dval c0 + 100 * dval c1 + 10 * dval c2 + dval c3 := by
    simp only [tsYear, valDigits, List.take_succ_cons, List.take_zero,
      List.foldl_cons, List.foldl_nil]
    ring
  have em : tsMonth [c0, c1, c2, c3, c4, c5, c6, c7, c8, c9, c10, c11]
      = 10 * dval c4 + dval c5 := by
    simp only [tsMonth, valDigits, List.drop_succ_cons, List.drop_zero,
      List.take_succ_cons, List.take_zero, List.foldl_cons, List.foldl_nil]
    ring
  have ed : tsDay [c0, c1, c2, c3, c4, c5, c6, c7, c8, c9, c10, c11]
      = 10 * dval c6 + dval c7 := by
    simp only [tsDay, valDigits, List.drop_succ_cons, List.drop_zero,
      List.take_succ_cons, List.take_zero, List.foldl_cons, List.foldl_nil]
    ring
  have eh : tsHour [c0, c1, c2, c3, c4, c5, c6, c7, c8, c9, c10, c11]
      = 10 * dval c8 + dval c9 := by
    simp only [tsHour, valDigits, List.drop_succ_cons, List.drop_zero,
      List.take_succ_cons, List.take_zero, List.foldl_cons, List.foldl_nil]
    ring
  have emi : tsMin [c0, c1, c2, c3, c4, c5, c6, c7, c8, c9, c10, c11]
      = 10 * dval c10 + dval c11 := by
    simp only [tsMin, valDigits, List.drop_succ_cons, List.drop_zero,
      List.take_succ_cons, List.take_zero, List.foldl_cons, List.foldl_nil]
    ring
  rw [ey] at hy ⊢
  rw [em] at hm1 hm2 ⊢
  rw [ed] at hd1 hd2 ⊢
  rw [eh] at hh ⊢
  rw [emi] at hmin ⊢
  rw [ey, em] at hd2
  have hd31 : 10 * dval c6 + dval c7 ≤ 31 :=
    le_trans hd2 (daysInMonth_le _ _)
  have hY : parseY [c0, c1, c2, c3, c4, c5, c6, c7, c8, c9, c10, c11]
      = some (1000 * dval c0 + 100 * dval c1 + 10 * dval c2 + dval c3,
          [c4, c5, c6, c7, c8, c9, c10, c11]) := by
    simp [parseY, d0, d1, d2, d3]
  have hM : fieldCands 1 12 1 9 [c4, c5, c6, c7, c8, c9, c10, c11]
      = (10 * dval c4 + dval c5, [c6, c7, c8, c9, c10, c11])
        :: cands1 1 9 [c4, c5, c6, c7, c8, c9, c10, c11] := by
    simp [fieldCands, cands2, d4, d5, hm1, hm2]
  have hD : fieldCands 1 31 1 9 [c6, c7, c8, c9, c10, c11]
      = (10 * dval c6 + dval c7, [c8, c9, c10, c11])
        :: cands1 1 9 [c6, c7, c8, c9, c10, c11] := by
    simp [fieldCands, cands2, d6, d7, hd1, hd31]
  have hH : fieldCands 0 23 0 9 [c8, c9, c10, c11]
      = (10 * dval c8 + dval c9, [c10, c11])
        :: cands1 0 9 [c8, c9, c10, c11] := by
    simp [fieldCands, cands2, d8, d9, hh]
  have hMi : fieldCands 0 59 0 9 [c10, c11]
      = (10 * dval c10 + dval c11, ([] : List Char))
        :: cands1 0 9 [c10, c11] := by
    simp [fieldCands, cands2, d10, d11, hmin]
  have hmatch : matchYmdHM [c0, c1, c2, c3, c4, c5, c6, c7, c8, c9, c10, c11]
      = some ⟨1000 * dval c0 + 100 * dval c1 + 10 * dval c2 + dval c3,
          10 * dval c4 + dval c5, 10 * dval c6 + dval c7,
          10 * dval c8 + dval c9, 10 * dval c10 + dval c11⟩ := by
    rw [matchYmdHM, hY, Option.some_bind]
    dsimp only
    rw [hM]
    refine firstSome_cons_of_some _ _ _ _ ?_
    dsimp only
    rw [hD]
    refine firstSome_cons_of_some _ _ _ _ ?_
    dsimp only
    rw [hH]
    refine firstSome_cons_of_some _ _ _ _ ?_
    dsimp only
    rw [hMi]
    refine firstSome_cons_of_some _ _ _ _ ?_
    simp
  rw [strptimeYmdHM, hmatch, Option.some_bind]
  dsimp only
  rw [if_pos ⟨hy, hd2⟩]

/-! ## Path-construction lemmas -/

theorem isPrefixOf_self (l : List Char) : l.isPrefixOf l = true := by
  induction l with
  | nil => rfl
  | cons c t ih => simp [List.isPrefixOf, ih]

theorem takeWhile_all_append (p : Char → Bool) (u v : List Char)
    (hu : ∀ c ∈ u, p c = true) :
    List.takeWhile p (u ++ v) = u ++ List.takeWhile p v := by
  induction u with
  | nil => simp
  | cons c t ih =>
    rw [List.cons_append, List.takeWhile_cons, if_pos (hu c (by simp)),
      ih (fun x hx => hu x (List.mem_cons_of_mem _ hx))]
    rfl

theorem lastComp_append (d x : List Char) (hx : ∀ c ∈ x, c ≠ '/') :
    lastComp (d ++ '/' :: x) = x := by
  unfold lastComp
  rw [List.reverse_append, List.reverse_cons, List.append_assoc]
  rw [takeWhile_all_append _ x.reverse _ ?hall]
  case hall =>
    intro c hc
    simp only [decide_eq_true_eq]
    exact hx c (List.mem_reverse.mp hc)
  rw [List.singleton_append, List.takeWhile_cons]
  simp

theorem beforeFirst_json (p : List Char) (hdot : ∀ c ∈ p, c ≠ '.') :
    beforeFirst ".json".data (p ++ ".json".data) = p := by
  induction p with
  | nil => decide
  | cons c t ih =>
    rw [List.cons_append, beforeFirst, if_neg ?hpre,
      ih (fun x hx => hdot x (List.mem_cons_of_mem _ hx))]
    case hpre =>
      show ¬ (('.' :: "json".data).isPrefixOf (c :: (t ++ ".json".data)) = true)
      simp only [List.isPrefixOf, Bool.and_eq_true, beq_iff_eq]
      intro hcon
      exact hdot c (by simp) hcon.1.symm

theorem digit_ne_dot (c : Char) (h : isDigitB c = true) : c ≠ '.' := by
  intro h2
  subst h2
  exact absurd h (by decide)

theorem digit_ne_slash (c : Char) (h : isDigitB c = true) : c ≠ '/' := by
  intro h2
  subst h2
  exact absurd h (by decide)

/-- Helper used by the C9 and C10 developments: on a source file whose
derived name contains neither `'.'` nor `'/'`, the coordinate rule applied
to the written reference path parses exactly that derived name. -/
theorem fn_to_time_outf (dir src : List Char)
    (hdot : ∀ c ∈ gtiff_fname src, c ≠ '.')
    (hslash : ∀ c ∈ gtiff_fname src, c ≠ '/') :
    fn_to_time (gtiff_outf dir src) = strptimeYmdHM (gtiff_fname src) := by
  unfold fn_to_time gtiff_outf
  rw [lastComp_append _ _ ?hxs]
  case hxs =>
    intro c hc
    rcases List.mem_append.mp hc with h | h
    · exact hslash c h
    · simp at h
      rcases h with rfl | rfl | rfl | rfl | rfl <;> decide
  rw [beforeFirst_json _ hdot]

/-! ## Bounds of the fields of a valid timestamp -/

theorem valid12_bounds (p : List Char) (h : Valid12 p = true) :
    p.length = 12 ∧ (∀ c ∈ p, isDigitB c = true)
      ∧ 1 ≤ tsYear p ∧ 1 ≤ tsMonth p ∧ tsMonth p ≤ 12
      ∧ 1 ≤ tsDay p ∧ tsDay p ≤ 31 ∧ tsHour p ≤ 23 ∧ tsMin p ≤ 59 := by
  simp only [Valid12, Bool.and_eq_true, beq_iff_eq, List.all_eq_true,
    decide_eq_true_eq] at h
  obtain ⟨⟨⟨⟨⟨⟨⟨⟨hl, hdig⟩, hy⟩, hm1⟩, hm2⟩, hd1⟩, hd2⟩, hh⟩, hmin⟩ := h
  exact ⟨hl, hdig, hy, hm1, hm2, hd1, le_trans hd2 (daysInMonth_le _ _), hh, hmin⟩

/-! ## Chronological order of parsed timestamps -/

/-- The value of a timestamp as a single mixed-radix number. -/
def dtVal (dt : DateTime5) : Nat :=
  (((dt.year * 100 + dt.month) * 100 + dt.day) * 100 + dt.hour) * 100 + dt.minute

/-- Chronological (strict) order on parsed timestamps. -/
def chronLT (u v : DateTime5) : Prop :=
  u.year < v.year ∨ (u.year = v.year ∧ (u.month < v.month ∨ (u.month = v.month ∧
    (u.day < v.day ∨ (u.day = v.day ∧ (u.hour < v.hour ∨ (u.hour = v.hour ∧
      u.minute < v.minute)))))))

theorem valDigits_eq_dtVal (p : List Char) (hl : p.length = 12) :
    valDigits p = dtVal ⟨tsYear p, tsMonth p, tsDay p, tsHour p, tsMin p⟩ := by
  obtain ⟨c0, c1, c2, c3, c4, c5, c6, c7, c8, c9, c10, c11, rfl⟩ := destruct12 p hl
  simp only [dtVal, tsYear, tsMonth, tsDay, tsHour, tsMin, valDigits,
    List.take_succ_cons, List.take_zero, List.drop_succ_cons, List.drop_zero,
    List.foldl_cons, List.foldl_nil]
  ring

theorem chron_of_valDigits (p q : List Char)
    (hp : Valid12 p = true) (hq : Valid12 q = true)
    (hv : valDigits p < valDigits q) :
    chronLT ⟨tsYear p, tsMonth p, tsDay p, tsHour p, tsMin p⟩
      ⟨tsYear q, tsMonth q, tsDay q, tsHour q, tsMin q⟩ := by
  obtain ⟨hlp, _, _, _, hpm, _, hpd, hph, hpmi⟩ := valid12_bounds p hp
  obtain ⟨hlq, _, _, _, hqm, _, hqd, hqh, hqmi⟩ := valid12_bounds q hq
  rw [valDigits_eq_dtVal p hlp, valDigits_eq_dtVal q hlq] at hv
  unfold dtVal at hv
  unfold chronLT
  simp only at hv ⊢
  omega

/-! ## Claim C8: `.strip(".nc")` naming in the NetCDF notebook -/

/-- C8: for every source path the written reference-JSON name uses the
source's last path component with the characters `'.'`, `'n'`, `'c'`
stripped from both ends (Python `str.strip(".nc")`), not mere extension
removal; for `"ncdata.nc"` extra leading/trailing characters are removed,
and the two distinct sources `"ncdata.nc"` and `"data.nc"` collide on the
same output path. -/
theorem netcdf_strip_naming :
    (∀ dir fil, netcdf_outf dir fil
        = dir ++ '/' :: (pyStrip ['.', 'n', 'c'] (lastComp fil) ++ ".json".data))
    ∧ netcdf_fname "s3://bucket/ncdata.nc".data = "data".data
    ∧ netcdf_fname "s3://bucket/ncdata.nc".data
        ≠ stripEndSuffix ".nc".data (lastComp "s3://bucket/ncdata.nc".data)
    ∧ "s3://bucket/ncdata.nc".data ≠ "s3://bucket/data.nc".data
    ∧ netcdf_outf "/tmp".data "s3://bucket/ncdata.nc".data
        = netcdf_outf "/tmp".data "s3://bucket/data.nc".data := by
  exact ⟨fun dir fil => rfl, by decide, by decide, by decide, by decide⟩

/-! ## Claim C9: the `fn_to_time` coordinate rule -/

/-- C9 counterexample: the claim's description of `fn_to_time` fails as
stated.  First, the rule succeeds on the file `"/tmp/20230101000.json"`
although its base-name stem `"20230101000"` is not a valid 12-digit
timestamp (CPython's `%Y%m%d%H%M` regex admits a one-digit minute).
Second, the rule cuts at the first occurrence of `".json"` rather than
removing a `".json"` suffix: on `"/tmp/202301010000.json.json"` it
succeeds while `strptime` of the suffix-stripped base name fails. -/
theorem fn_to_time_claim_counterexample :
    fn_to_time "/tmp/20230101000.json".data = some ⟨2023, 1, 1, 0, 0⟩
    ∧ Valid12 "20230101000".data = false
    ∧ fn_to_time "/tmp/202301010000.json.json".data = some ⟨2023, 1, 1, 0, 0⟩
    ∧ strptimeYmdHM
        (stripEndSuffix ".json".data (lastComp "/tmp/202301010000.json.json".data))
        = none := by
  exact ⟨by decide, by decide, by decide, by decide⟩

/-- C9 (amended): `fn_to_time` returns `strptime` with format
`"%Y%m%d%H%M"` applied to the part of the file's base name before the
first occurrence of `".json"`; by construction of
`generate_json_reference` that part equals the pre-underscore part of the
source base name whenever the latter contains no `'.'` (and no `'/'`);
and `strptime` succeeds on every valid 12-digit timestamp of that format,
returning its fixed-width fields (strings not matched by the pattern
fail, but the pattern also admits some shorter digit strings). -/
theorem fn_to_time_amended :
    (∀ fn, fn_to_time fn = strptimeYmdHM (beforeFirst ".json".data (lastComp fn)))
    ∧ (∀ dir src, (∀ c ∈ gtiff_fname src, c ≠ '.') → (∀ c ∈ gtiff_fname src, c ≠ '/') →
        fn_to_time (gtiff_outf dir src) = strptimeYmdHM (gtiff_fname src))
    ∧ (∀ p, Valid12 p = true →
        strptimeYmdHM p = some ⟨tsYear p, tsMonth p, tsDay p, tsHour p, tsMin p⟩) :=
  ⟨fun _ => rfl, fn_to_time_outf, strptime_valid12⟩

/-- Witness for the amended C9 at a concrete source file. -/
theorem fn_to_time_amended_witness :
    fn_to_time (gtiff_outf "/tmp".data "s3://b/202307010100_FIN-ACRR1H-3067-1KM.tif".data)
      = strptimeYmdHM (gtiff_fname "s3://b/202307010100_FIN-ACRR1H-3067-1KM.tif".data)
    ∧ strptimeYmdHM "202307010100".data
      = some ⟨tsYear "202307010100".data, tsMonth "202307010100".data,
          tsDay "202307010100".data, tsHour "202307010100".data,
          tsMin "202307010100".data⟩ :=
  ⟨fn_to_time_amended.2.1 "/tmp".data "s3://b/202307010100_FIN-ACRR1H-3067-1KM.tif".data
      (by decide) (by decide),
    fn_to_time_amended.2.2 "202307010100".data (by decide)⟩

/-! ## Claim C10: lexicographic order of reference names is chronological -/

/-- C10: when every source file carries a valid 12-digit `%Y%m%d%H%M`
timestamp before its first underscore and those prefixes are pairwise
distinct, sorting the written reference-file paths lexicographically (as
`sorted(glob.iglob(...))` does) makes the derived time coordinates parse
successfully and come out strictly increasing, i.e. chronological. -/
theorem gtiff_sorted_chronological (dir : List Char) (srcs : List (List Char))
    (hv : ∀ s ∈ srcs, Valid12 (gtiff_fname s) = true)
    (hn : (srcs.map gtiff_fname).Nodup) :
    (∀ r ∈ (srcs.map (gtiff_outf dir)).mergeSort lexLe, (fn_to_time r).isSome = true)
    ∧ List.Pairwise (fun a b =>
        chronLT ((fn_to_time a).getD ⟨0, 0, 0, 0, 0⟩)
          ((fn_to_time b).getD ⟨0, 0, 0, 0, 0⟩))
        ((srcs.map (gtiff_outf dir)).mergeSort lexLe) := by
  have hperm := List.mergeSort_perm (srcs.map (gtiff_outf dir)) lexLe
  have hmem : ∀ r ∈ (srcs.map (gtiff_outf dir)).mergeSort lexLe,
      ∃ s ∈ srcs, r = gtiff_outf dir s := by
    intro r hr
    rcases List.mem_map.mp (hperm.mem_iff.mp hr) with ⟨s, hs, rfl⟩
    exact ⟨s, hs, rfl⟩
  have htime : ∀ s ∈ srcs, fn_to_time (gtiff_outf dir s)
      = some ⟨tsYear (gtiff_fname s), tsMonth (gtiff_fname s), tsDay (gtiff_fname s),
          tsHour (gtiff_fname s), tsMin (gtiff_fname s)⟩ := by
    intro s hs
    have hdig : ∀ c ∈ gtiff_fname s, isDigitB c = true :=
      (valid12_bounds _ (hv s hs)).2.1
    rw [fn_to_time_outf dir s (fun c hc => digit_ne_dot c (hdig c hc))
      (fun c hc => digit_ne_slash c (hdig c hc))]
    exact strptime_valid12 _ (hv s hs)
  refine ⟨?_, ?_⟩
  · intro r hr
    rcases hmem r hr with ⟨s, hs, rfl⟩
    rw [htime s hs]
    rfl
  · have hLnodup : (srcs.map (gtiff_outf dir)).Nodup := by
      have heq : srcs.map (gtiff_outf dir)
          = (srcs.map gtiff_fname).map
              (fun p => dir ++ '/' :: (p ++ ".json".data)) := by
        rw [List.map_map]
        rfl
      rw [heq]
      refine List.Nodup.map ?_ hn
      intro p1 p2 h12
      have h13 := List.append_cancel_left h12
      have h14 : p1 ++ ".json".data = p2 ++ ".json".data := by
        injection h13
      exact List.append_cancel_right h14
    have hsorted := List.sorted_mergeSort lexLe_trans lexLe_total
      (srcs.map (gtiff_outf dir))
    have hnodup : ((srcs.map (gtiff_outf dir)).mergeSort lexLe).Nodup :=
      hperm.nodup_iff.mpr hLnodup
    refine List.Pairwise.imp_of_mem ?_ (hsorted.and hnodup)
    intro a b ha hb hab
    obtain ⟨hle, hne⟩ := hab
    rcases hmem a ha with ⟨s1, hs1, rfl⟩
    rcases hmem b hb with ⟨s2, hs2, rfl⟩
    rw [htime s1 hs1, htime s2 hs2]
    simp only [Option.getD_some]
    apply chron_of_valDigits _ _ (hv s1 hs1) (hv s2 hs2)
    have hne2 : gtiff_fname s1 ≠ gtiff_fname s2 := by
      intro he
      apply hne
      show dir ++ '/' :: (gtiff_fname s1 ++ ".json".data) = _
      rw [he]
      rfl
    have hlen12a : (gtiff_fname s1).length = 12 := (valid12_bounds _ (hv s1 hs1)).1
    have hlen12b : (gtiff_fname s2).length = 12 := (valid12_bounds _ (hv s2 hs2)).1
    refine lex_strict_digits _ _ ".json".data (by rw [hlen12a, hlen12b])
      (valid12_bounds _ (hv s1 hs1)).2.1 (valid12_bounds _ (hv s2 hs2)).2.1 hne2 ?_
    have hrw : ∀ s : List Char, gtiff_outf dir s
        = (dir ++ ['/']) ++ (gtiff_fname s ++ ".json".data) := by
      intro s
      show dir ++ '/' :: (gtiff_fname s ++ ".json".data) = _
      rw [List.append_cons]
    rw [hrw s1, hrw s2, lexLe_append_left] at hle
    exact hle

/-- Witness for C10 at two concrete, deliberately unsorted source files. -/
theorem gtiff_sorted_chronological_witness :
    (∀ r ∈ (["s3://b/202301020000_A.tif".data,
        "s3://b/202301010000_B.tif".data].map
        (gtiff_outf "/tmp".data)).mergeSort lexLe, (fn_to_time r).isSome = true)
    ∧ List.Pairwise (fun a b =>
        chronLT ((fn_to_time a).getD ⟨0, 0, 0, 0, 0⟩)
          ((fn_to_time b).getD ⟨0, 0, 0, 0, 0⟩))
        ((["s3://b/202301020000_A.tif".data,
          "s3://b/202301010000_B.tif".data].map
          (gtiff_outf "/tmp".data)).mergeSort lexLe) :=
  gtiff_sorted_chronological "/tmp".data _ (by decide) (by decide)

/-! ## Part 2: the spec-modelled reference-index system

The Extractor, Combiner and Virtual Dataset View are implemented by the
external kerchunk / fsspec libraries the notebooks call; only their
call sites are in this repository.  The definitions below are therefore
modelled from the specification's own words and the claims are settled
against these models. -/

/-- Modelled from the spec: a ChunkRef is either `{uri, offset, length}`
(fetch this byte range from this source) or inline data small enough to
embed directly. -/
inductive ChunkRef where
  | range (uri : String) (offset length : Nat)
  | inline (data : List Int)
deriving DecidableEq, Repr

/-- Modelled from the spec: per-variable metadata — ordered dimension
names, dimension sizes, chunk shape, data type, and per-variable
attributes standing in for fill value / encoding parameters. -/
structure VariableSchema where
  dims : List String
  sizes : List Nat
  chunkShape : List Nat
  dtype : String
  attrs : List (String × String)
deriving DecidableEq, Repr

/-- Modelled from the spec: a ReferenceIndex — a set of VariableSchemas,
a mapping from chunk key (variable name and chunk-grid coordinates) to
ChunkRef, and dataset-level attributes. -/
structure ReferenceIndex where
  vars : List (String × VariableSchema)
  chunks : List ((String × List Nat) × ChunkRef)
  attrs : List (String × String)
deriving DecidableEq, Repr

/-- First-match association lookup (the mapping view of an entry list). -/
def assocLookup {α β : Type} [DecidableEq α] : α → List (α × β) → Option β
  | _, [] => none
  | k, e :: es => if e.1 = k then some e.2 else assocLookup k es

theorem assocLookup_cons_self {α β : Type} [DecidableEq α] (k : α) (v : β)
    (es : List (α × β)) : assocLookup k ((k, v) :: es) = some v := by
  rw [assocLookup, if_pos rfl]

theorem assocLookup_cons_ne {α β : Type} [DecidableEq α] (k : α) (e : α × β)
    (es : List (α × β)) (h : e.1 ≠ k) :
    assocLookup k (e :: es) = assocLookup k es := by
  rw [assocLookup, if_neg h]

theorem assocLookup_append_some {α β : Type} [DecidableEq α] (k : α) (v : β)
    (l1 l2 : List (α × β)) (h : assocLookup k l1 = some v) :
    assocLookup k (l1 ++ l2) = some v := by
  induction l1 with
  | nil => exact absurd h (by simp [assocLookup])
  | cons e es ih =>
    rw [List.cons_append, assocLookup]
    rw [assocLookup] at h
    split at h
    · rw [if_pos (by assumption)]
      exact h
    · rw [if_neg (by assumption)]
      exact ih h

theorem assocLookup_append_none {α β : Type} [DecidableEq α] (k : α)
    (l1 l2 : List (α × β)) (h : assocLookup k l1 = none) :
    assocLookup k (l1 ++ l2) = assocLookup k l2 := by
  induction l1 with
  | nil => rfl
  | cons e es ih =>
    rw [List.cons_append, assocLookup]
    rw [assocLookup] at h
    split at h
    · exact absurd h (by simp)
    · rw [if_neg (by assumption)]
      exact ih h

/-- Chunk lookup in an index (first entry with the requested key). -/
def lookupChunk (idx : ReferenceIndex) (key : String × List Nat) : Option ChunkRef :=
  assocLookup key idx.chunks

/-- Declared dtype of a variable (empty when the variable is unknown). -/
def dtypeOf (idx : ReferenceIndex) (v : String) : String :=
  ((assocLookup v idx.vars).map VariableSchema.dtype).getD ""

/-! ## Claim C2: multi-message extraction with a metadata filter -/

/-- Modelled from the spec: one self-consistent message of a multi-message
source file, carrying its message-level metadata and the ReferenceIndex
extraction would produce for it. -/
structure GribMessage where
  typeOfLevel : String
  level : Nat
  index : ReferenceIndex
deriving DecidableEq, Repr

/-- Modelled from the spec: a caller-supplied filter predicate over
message-level metadata (level type and admissible level values). -/
structure GribFilter where
  typeOfLevel : String
  levels : List Nat
deriving DecidableEq, Repr

/-- Whether a message matches the filter. -/
def matchesFilter (flt : GribFilter) (msg : GribMessage) : Bool :=
  msg.typeOfLevel == flt.typeOfLevel && flt.levels.contains msg.level

/-- Embeds the notebook line
`afilter = {"typeOfLevel": "heightAboveGround", "level": [2, 10]}`. -/
def afilter : GribFilter :=
  ⟨"heightAboveGround", [2, 10]⟩

/-- Modelled from the spec: `scan_grib` walks the messages of one source
file and yields one ReferenceIndex per message matching the filter;
non-matching messages are skipped entirely (no index, no error — the
function is total). -/
def scan_grib (flt : GribFilter) : List GribMessage → List ReferenceIndex
  | [] => []
  | msg :: rest =>
      if matchesFilter flt msg then msg.index :: scan_grib flt rest
      else scan_grib flt rest

/-- A distinguishable sample message for the concrete C2 scenario. -/
def sampleMsg (tol : String) (lvl : Nat) (tag : String) : GribMessage :=
  ⟨tol, lvl, ⟨[], [], [("message", tag)]⟩⟩

/-- The concrete six-message file of the claim: messages at levels
`[2, 10, 50, 80, 50, 80]`. -/
def sixMessages : List GribMessage :=
  [sampleMsg "heightAboveGround" 2 "m0", sampleMsg "heightAboveGround" 10 "m1",
   sampleMsg "heightAboveGround" 50 "m2", sampleMsg "heightAboveGround" 80 "m3",
   sampleMsg "heightAboveGround" 50 "m4", sampleMsg "heightAboveGround" 80 "m5"]

theorem scan_grib_eq_filter_map (flt : GribFilter) (msgs : List GribMessage) :
    scan_grib flt msgs = (msgs.filter (matchesFilter flt)).map GribMessage.index := by
  induction msgs with
  | nil => rfl
  | cons m rest ih =>
    rw [scan_grib, List.filter_cons]
    by_cases h : matchesFilter flt m = true
    · rw [if_pos h, if_pos h, List.map_cons, ih]
    · rw [if_neg h, if_neg h, ih]

/-- C2: extraction yields exactly one index per matching message, in
order, and skips non-matching messages without indexing them and without
error; on the six-message file at levels `[2,10,50,80,50,80]` with the
notebook's `level=[2,10]` filter it yields exactly the two matching
messages as separate indexes, not six. -/
theorem scan_grib_filter_behavior :
    (∀ flt msgs, scan_grib flt msgs
        = (msgs.filter (matchesFilter flt)).map GribMessage.index)
    ∧ (∀ flt msgs, (scan_grib flt msgs).length = msgs.countP (matchesFilter flt))
    ∧ sixMessages.length = 6
    ∧ sixMessages.map GribMessage.level = [2, 10, 50, 80, 50, 80]
    ∧ scan_grib afilter sixMessages
        = [(sampleMsg "heightAboveGround" 2 "m0").index,
           (sampleMsg "heightAboveGround" 10 "m1").index]
    ∧ (scan_grib afilter sixMessages).length = 2 := by
  refine ⟨scan_grib_eq_filter_map, ?_, by decide, by decide, by decide, by decide⟩
  intro flt msgs
  rw [scan_grib_eq_filter_map, List.length_map, List.countP_eq_length_filter]

/-! ## Claim C5: the Virtual Dataset View is lazy and fetches once -/

/-- One observable I/O action of the Virtual Dataset View. -/
inductive ViewEvent where
  | readIndexDoc
  | rangedFetch (uri : String) (offset length : Nat)
deriving DecidableEq, Repr

/-- Modelled from the spec: opening the view reads the persisted index
document itself and performs no data I/O. -/
def openViewEvents (_idx : ReferenceIndex) : List ViewEvent :=
  [ViewEvent.readIndexDoc]

/-- Modelled from the spec: serving one request for chunk key `key`.
`world` is the remote byte store (uri, offset, length ↦ bytes) and
`decode` decodes fetched or inline bytes according to the variable's
declared encoding.  An inline chunk is answered from the index alone; a
range chunk performs exactly one ranged fetch; the returned event list is
the data I/O this request performs. -/
def requestChunk (world : String → Nat → Nat → List Int)
    (decode : String → List Int → List Int)
    (idx : ReferenceIndex) (key : String × List Nat) :
    Option (List Int) × List ViewEvent :=
  match lookupChunk idx key with
  | none => (none, [])
  | some (ChunkRef.inline data) => (some (decode (dtypeOf idx key.1) data), [])
  | some (ChunkRef.range uri off len) =>
      (some (decode (dtypeOf idx key.1) (world uri off len)),
       [ViewEvent.rangedFetch uri off len])

/-- C5: opening the view performs no data I/O beyond reading the index
document; an inline chunk request returns the inline bytes with no fetch;
a range chunk request performs exactly one ranged fetch at the referenced
URI and byte range, decoded per the declared encoding; and no request
ever performs more than one fetch. -/
theorem view_lazy_single_fetch :
    (∀ idx : ReferenceIndex, openViewEvents idx = [ViewEvent.readIndexDoc])
    ∧ (∀ world decode idx key data,
        lookupChunk idx key = some (ChunkRef.inline data) →
        requestChunk world decode idx key
          = (some (decode (dtypeOf idx key.1) data), []))
    ∧ (∀ world decode idx key uri off len,
        lookupChunk idx key = some (ChunkRef.range uri off len) →
        requestChunk world decode idx key
          = (some (decode (dtypeOf idx key.1) (world uri off len)),
             [ViewEvent.rangedFetch uri off len]))
    ∧ (∀ world decode idx key,
        (requestChunk world decode idx key).2.length ≤ 1) := by
  refine ⟨fun _ => rfl, ?_, ?_, ?_⟩
  · intro world decode idx key data h
    unfold requestChunk
    rw [h]
  · intro world decode idx key uri off len h
    unfold requestChunk
    rw [h]
  · intro world decode idx key
    unfold requestChunk
    rcases lookupChunk idx key with _ | ref
    · exact Nat.zero_le 1
    · rcases ref with ⟨uri, off, len⟩ | data
      · exact Nat.le_refl 1
      · exact Nat.zero_le 1

/-- A tiny concrete index for the C5 witness: one inline chunk and one
byte-range chunk. -/
def sampleIndex : ReferenceIndex :=
  ⟨[("T2", ⟨["time", "y"], [1, 4], [1, 2], "f4", []⟩),
    ("time", ⟨["time"], [1], [1], "i8", []⟩)],
   [(("T2", [0, 0]), ChunkRef.range "s3://b/f0.nc" 100 200),
    (("time", [0]), ChunkRef.inline [7])],
   [("title", "sample")]⟩

/-- Witness for C5 at `sampleIndex`. -/
theorem view_lazy_single_fetch_witness :
    requestChunk (fun _ _ _ => [3]) (fun _ d => d) sampleIndex ("time", [0])
      = (some (dtypeOf sampleIndex "time" |> fun _ => [7]), [])
    ∧ requestChunk (fun _ _ _ => [3]) (fun _ d => d) sampleIndex ("T2", [0, 0])
      = (some [3], [ViewEvent.rangedFetch "s3://b/f0.nc" 100 200]) :=
  ⟨view_lazy_single_fetch.2.1 (fun _ _ _ => [3]) (fun _ d => d) sampleIndex
      ("time", [0]) [7] (by decide),
    view_lazy_single_fetch.2.2.1 (fun _ _ _ => [3]) (fun _ d => d) sampleIndex
      ("T2", [0, 0]) "s3://b/f0.nc" 100 200 (by decide)⟩

/-! ## The Reference Combiner (claims C1, C3, C4, C7) -/

/-- Modelled from the spec: the merge-time error taxonomy (identical
dimensions that actually differ; a CoordinateMap rule that produced no
value). -/
inductive CombineError where
  | schemaConflict
  | coordinateResolution
deriving DecidableEq, Repr

/-- Position of a dimension name in an ordered dimension list. -/
def dimIndex (d : String) : List String → Option Nat
  | [] => none
  | x :: xs => if x = d then some 0 else (dimIndex d xs).map (· + 1)

/-- Size of dimension `d` in an index, read off the first variable that
lists `d`. -/
def dimSize (idx : ReferenceIndex) (d : String) : Option Nat :=
  (idx.vars.filterMap fun vs =>
    (dimIndex d vs.2.dims).bind fun i => vs.2.sizes.get? i).head?

/-- Whether every dimension of a variable is caller-declared identical. -/
def identicalVar (identicalDims : List String) (sch : VariableSchema) : Bool :=
  sch.dims.all (fun d => identicalDims.contains d)

/-- Modelled from the spec (Combiner step 1, and the attribute clause of
step 5): every input must agree with the first file on the sizes of the
declared identical dimensions, and on the exact schema (shape, dtype,
attributes) of every variable living purely on identical dimensions. -/
def validateIdentical (identicalDims : List String) : List ReferenceIndex → Bool
  | [] => true
  | f0 :: rest =>
      rest.all fun f =>
        identicalDims.all (fun d => dimSize f d == dimSize f0 d)
          && f0.vars.all fun vs =>
            if identicalVar identicalDims vs.2 then
              match assocLookup vs.1 f.vars with
              | some sch2 => sch2 == vs.2
              | none => true
            else true

/-- Modelled from the spec (Combiner step 2): derive one coordinate per
input file using the CoordinateMap rule, a function of the file position,
the file identifier and the file's own index. -/
def deriveCoords (rule : Nat → String → ReferenceIndex → Option Int)
    (inputs : List (String × ReferenceIndex)) : List (Option Int) :=
  inputs.mapIdx fun i pf => rule i pf.1 pf.2

/-- Strict monotonicity of the derived coordinate sequence. -/
def strictlyIncreasing : List Int → Bool
  | [] => true
  | [_] => true
  | a :: b :: rest => a < b && strictlyIncreasing (b :: rest)

/-- Modelled from the spec (Combiner step 4): re-key one chunk of file
`i` — its grid coordinate along the concatenation dimension is offset by
the file's position; chunks of variables without the concatenation
dimension are kept verbatim. -/
def rekeyChunk (concatDim : String) (vars : List (String × VariableSchema)) (i : Nat)
    (c : (String × List Nat) × ChunkRef) : (String × List Nat) × ChunkRef :=
  match (assocLookup c.1.1 vars).bind fun sch => dimIndex concatDim sch.dims with
  | some p => ((c.1.1, c.1.2.set p (c.1.2.getD p 0 + i)), c.2)
  | none => c

/-- Whether a chunk belongs to a variable with the concatenation
dimension. -/
def hasConcatDim (concatDim : String) (vars : List (String × VariableSchema))
    (c : (String × List Nat) × ChunkRef) : Bool :=
  ((assocLookup c.1.1 vars).bind fun sch => dimIndex concatDim sch.dims).isSome

/-- Modelled from the spec (Combiner step 3): the merged schema of one
variable — the size along the concatenation dimension becomes the total
over the input files; identical dimensions retain their layout. -/
def mergeSchema (concatDim : String) (total : Nat) (sch : VariableSchema) :
    VariableSchema :=
  match dimIndex concatDim sch.dims with
  | some p => { sch with sizes := sch.sizes.set p total }
  | none => sch

/-- Modelled from the spec (Combiner step 5): last-write-wins merge of
dataset-level attributes. -/
def lwwMerge (acc new : List (String × String)) : List (String × String) :=
  acc.filter (fun kv => (assocLookup kv.1 new).isNone) ++ new

/-- Number of chunks along one dimension. -/
def chunkGridSize (size chunk : Nat) : Nat := (size + chunk - 1) / chunk

/-- Modelled from the spec: the Reference Combiner.  Steps, in order:
validate the identical dimensions (`SchemaConflictError` on disagreement);
derive one coordinate per file (`CoordinateResolutionError` when a rule
yields none); build the merged chunk grid (concatenation-dimension size
totalled over the files, identical dimensions shared verbatim from the
first file, the derived coordinate injected as an inline coordinate
variable in file-list order — never sorted); re-key every chunk by
offsetting its concatenation coordinate by the file position; merge
attributes last-write-wins.  Non-monotonic coordinates only set the
`CoordinateOrderWarning` flag of the result. -/
def combine (concatDim : String) (identicalDims : List String)
    (rule : Nat → String → ReferenceIndex → Option Int)
    (inputs : List (String × ReferenceIndex)) :
    Except CombineError (ReferenceIndex × Bool) :=
  if validateIdentical identicalDims (inputs.map Prod.snd) then
    match inputs with
    | [] => Except.error CombineError.coordinateResolution
    | (p0, f0) :: rest =>
        let copts := deriveCoords rule ((p0, f0) :: rest)
        if copts.contains none then Except.error CombineError.coordinateResolution
        else
          let coords := copts.reduceOption
          let total := ((p0, f0) :: rest).foldl
              (fun acc pf => acc + ((dimSize pf.2 concatDim).getD 0)) 0
          let mergedVars :=
            (f0.vars.map fun vs => (vs.1, mergeSchema concatDim total vs.2))
              ++ [(concatDim,
                    ⟨[concatDim], [coords.length], [coords.length], "i8", []⟩)]
          let dataChunks :=
            (((p0, f0) :: rest).mapIdx fun i pf =>
              (if i == 0 then pf.2.chunks
               else pf.2.chunks.filter (hasConcatDim concatDim pf.2.vars)).map
                (rekeyChunk concatDim pf.2.vars i)).flatten
          let mergedAttrs :=
            ((p0, f0) :: rest).foldl (fun acc pf => lwwMerge acc pf.2.attrs) []
          Except.ok
            (⟨mergedVars, ((concatDim, [0]), ChunkRef.inline coords) :: dataChunks,
              mergedAttrs⟩,
             ! strictlyIncreasing coords)
  else Except.error CombineError.schemaConflict

/-! ## Claim C3: identical-dimension disagreement is a SchemaConflictError -/

/-- C3: two inputs that disagree on a caller-declared identical dimension
— in the dimension's size (e.g. X of 100 vs 200) or in the dtype of a
variable living on identical dimensions — make the Combiner fail with
`SchemaConflictError` instead of producing a merged index. -/
theorem combine_schema_conflict (concatDim : String) (identicalDims : List String)
    (rule : Nat → String → ReferenceIndex → Option Int)
    (p1 p2 : String) (f1 f2 : ReferenceIndex)
    (hconf : (∃ d ∈ identicalDims, dimSize f2 d ≠ dimSize f1 d)
      ∨ ∃ vs ∈ f1.vars, ∃ sch2, identicalVar identicalDims vs.2 = true
          ∧ assocLookup vs.1 f2.vars = some sch2 ∧ sch2.dtype ≠ vs.2.dtype) :
    combine concatDim identicalDims rule [(p1, f1), (p2, f2)]
      = Except.error CombineError.schemaConflict := by
  have hval : validateIdentical identicalDims [f1, f2] = false := by
    rw [validateIdentical]
    simp only [List.all_cons, List.all_nil, Bool.and_true]
    rcases hconf with ⟨d, hd, hne⟩ | ⟨vs, hvs, sch2, hiv, hlk, hdt⟩
    · have h1 : identicalDims.all (fun d' => dimSize f2 d' == dimSize f1 d')
          = false := by
        cases hall : identicalDims.all (fun d' => dimSize f2 d' == dimSize f1 d') with
        | false => rfl
        | true =>
          have := List.all_eq_true.mp hall d hd
          rw [beq_iff_eq] at this
          exact absurd this hne
      rw [h1, Bool.false_and]
    · have h2 : (f1.vars.all fun vs =>
          if identicalVar identicalDims vs.2 then
            match assocLookup vs.1 f2.vars with
            | some sch2 => sch2 == vs.2
            | none => true
          else true) = false := by
        cases hall : (f1.vars.all fun vs =>
            if identicalVar identicalDims vs.2 then
              match assocLookup vs.1 f2.vars with
              | some sch2 => sch2 == vs.2
              | none => true
            else true) with
        | false => rfl
        | true =>
          have := List.all_eq_true.mp hall vs hvs
          rw [if_pos hiv, hlk] at this
          simp only [beq_iff_eq] at this
          exact absurd (by rw [this]) hdt
      rw [h2, Bool.and_false]
  rw [combine, if_neg]
  rw [show ([(p1, f1), (p2, f2)].map Prod.snd) = [f1, f2] from rfl, hval]
  exact Bool.false_ne_true

/-- A one-variable index whose only dimension `X` has size `n`, for the
C3 witness. -/
def sampleXIndex (n : Nat) : ReferenceIndex :=
  ⟨[("precip", ⟨["X"], [n], [n], "f4", []⟩)], [], []⟩

/-- Witness for C3: X-dimension sizes 100 vs 200 on declared identical
dimension `X`. -/
theorem combine_schema_conflict_witness :
    combine "time" ["X"] (fun i _ _ => some (i : Int))
      [("s3://b/a.tif", sampleXIndex 100), ("s3://b/b.tif", sampleXIndex 200)]
      = Except.error CombineError.schemaConflict :=
  combine_schema_conflict "time" ["X"] (fun i _ _ => some (i : Int))
    "s3://b/a.tif" "s3://b/b.tif" (sampleXIndex 100) (sampleXIndex 200)
    (Or.inl ⟨"X", by decide, by decide⟩)

/-! ## Claim C4: non-monotonic coordinates warn, never raise, never sort -/

theorem contains_none_of_map_some {β : Type} [DecidableEq β] (l : List β) :
    (l.map some).contains none = false := by
  induction l with
  | nil => rfl
  | cons a t ih =>
    simp only [List.map_cons, List.contains_cons, ih, Bool.or_false]
    rfl

theorem reduceOption_of_map_some {β : Type} (l : List β) :
    (l.map some).reduceOption = l := by
  rw [List.reduceOption, List.filterMap_map]
  exact List.filterMap_some l

/-- C4: on every input list whose derived concatenation coordinates are
non-monotonic (e.g. `[5, 3, 8]`), the Combiner neither raises nor sorts:
it completes the merge with the coordinates kept in the given file order
and only sets the `CoordinateOrderWarning` flag. -/
theorem combine_nonmonotonic_warns (concatDim : String) (identicalDims : List String)
    (rule : Nat → String → ReferenceIndex → Option Int)
    (inputs : List (String × ReferenceIndex)) (coords : List Int)
    (hval : validateIdentical identicalDims (inputs.map Prod.snd) = true)
    (hco : deriveCoords rule inputs = coords.map some)
    (hmono : strictlyIncreasing coords = false) :
    ∃ merged, combine concatDim identicalDims rule inputs = Except.ok (merged, true)
      ∧ lookupChunk merged (concatDim, [0]) = some (ChunkRef.inline coords) := by
  rcases inputs with _ | ⟨⟨q0, g0⟩, irest⟩
  · have hnil : coords.map some = ([] : List (Option Int)) := by
      rw [← hco]
      rfl
    have hcnil : coords = [] := by
      cases coords with
      | nil => rfl
      | cons a t => exact absurd hnil (by simp)
    rw [hcnil] at hmono
    exact absurd hmono (by decide)
  rw [combine, if_pos hval]
  rw [hco]
  dsimp only
  rw [if_neg ?hcontains]
  case hcontains =>
    intro hcon
    rw [contains_none_of_map_some] at hcon
    exact absurd hcon (by simp)
  rw [reduceOption_of_map_some]
  rw [show (! strictlyIncreasing coords) = true from by rw [hmono]; rfl]
  refine ⟨_, rfl, ?_⟩
  rw [lookupChunk]
  exact assocLookup_cons_self _ _ _

/-- A schema-less index for the C4 and C7 witnesses. -/
def emptyIndex : ReferenceIndex := ⟨[], [], []⟩

/-- Witness for C4 at three concrete files with derived coordinates
`[5, 3, 8]`. -/
theorem combine_nonmonotonic_warns_witness :
    ∃ merged, combine "time" ["y"] (fun i _ _ => some (List.getD [5, 3, 8] i 0))
        [("a", emptyIndex), ("b", emptyIndex), ("c", emptyIndex)]
      = Except.ok (merged, true)
      ∧ lookupChunk merged ("time", [0]) = some (ChunkRef.inline [5, 3, 8]) :=
  combine_nonmonotonic_warns "time" ["y"]
    (fun i _ _ => some (List.getD [5, 3, 8] i 0))
    [("a", emptyIndex), ("b", emptyIndex), ("c", emptyIndex)]
    [5, 3, 8] (by decide) (by decide) (by decide)

/-! ## Claim C7: the merge is independent of extraction completion order -/

/-- Modelled from the spec: the Combiner consumes the complete set of
per-file extraction results keyed by file identifier; it takes its file
order from the caller's OrderedFileList, never from completion order,
which only permutes the result set. -/
def combineFromResults (concatDim : String) (identicalDims : List String)
    (rule : Nat → String → ReferenceIndex → Option Int)
    (fileList : List String) (results : List (String × ReferenceIndex)) :
    Except CombineError (ReferenceIndex × Bool) :=
  combine concatDim identicalDims rule
    (fileList.filterMap fun p => (assocLookup p results).map fun f => (p, f))

theorem assocLookup_perm {α β : Type} [DecidableEq α]
    {l1 l2 : List (α × β)} (hp : l1.Perm l2) :
    ∀ k : α, (l1.map Prod.fst).Nodup → assocLookup k l1 = assocLookup k l2 := by
  induction hp with
  | nil => intro k _; rfl
  | cons e _ ih =>
    intro k hn
    rw [List.map_cons] at hn
    by_cases h : e.1 = k
    · rw [assocLookup, assocLookup, if_pos h, if_pos h]
    · rw [assocLookup, assocLookup, if_neg h, if_neg h]
      exact ih k hn.of_cons
  | swap x y l =>
    intro k hn
    simp only [List.map_cons, List.nodup_cons, List.mem_cons] at hn
    by_cases hx : x.1 = k <;> by_cases hy : y.1 = k
    · exact absurd (hy.trans hx.symm) (fun hc => hn.1 (Or.inl hc))
    · rw [assocLookup, if_neg hy, assocLookup, if_pos hx,
        assocLookup, if_pos hx]
    · rw [assocLookup, if_pos hy, assocLookup, if_neg hx,
        assocLookup, if_pos hy]
    · rw [assocLookup, if_neg hy, assocLookup, if_neg hx,
        assocLookup, if_neg hx, assocLookup, if_neg hy]
  | trans h1 _ ih1 ih2 =>
    intro k hn
    rw [ih1 k hn, ih2 k (((h1.map Prod.fst).nodup_iff).mp hn)]

/-- C7: with the file order fixed by the caller's OrderedFileList, the
merged output depends only on the set of per-file results: delivering the
complete result set in any two enumeration orders (a permutation, with
one result per file) produces equal merged indexes. -/
theorem combine_order_independent (concatDim : String) (identicalDims : List String)
    (rule : Nat → String → ReferenceIndex → Option Int) (fileList : List String)
    (results results' : List (String × ReferenceIndex))
    (hp : results.Perm results')
    (hn : (results.map Prod.fst).Nodup) :
    combineFromResults concatDim identicalDims rule fileList results
      = combineFromResults concatDim identicalDims rule fileList results' := by
  unfold combineFromResults
  have hlk : ∀ p, assocLookup p results = assocLookup p results' :=
    fun p => assocLookup_perm hp p hn
  simp only [hlk]

/-- Witness for C7: two delivery orders of the same two extraction
results produce the same merged index. -/
theorem combine_order_independent_witness :
    combineFromResults "time" ["y"] (fun i _ _ => some (i : Int))
      ["a", "b"] [("a", emptyIndex), ("b", sampleXIndex 100)]
      = combineFromResults "time" ["y"] (fun i _ _ => some (i : Int))
        ["a", "b"] [("b", sampleXIndex 100), ("a", emptyIndex)] :=
  combine_order_independent "time" ["y"] (fun i _ _ => some (i : Int))
    ["a", "b"] [("a", emptyIndex), ("b", sampleXIndex 100)]
    [("b", sampleXIndex 100), ("a", emptyIndex)]
    (List.Perm.swap _ _ _) (by decide)

/-! ## Claim C1: supporting lemmas -/

theorem dimIndex_lt_length (d : String) (dims : List String) (p : Nat)
    (h : dimIndex d dims = some p) : p < dims.length := by
  induction dims generalizing p with
  | nil => exact absurd h (by simp [dimIndex])
  | cons x xs ih =>
    rw [dimIndex] at h
    split at h
    · cases h
      simp
    · rcases Option.map_eq_some'.mp h with ⟨q, hq, rfl⟩
      have := ih q hq
      simp
      omega

theorem getElem?_eq_some_getD (l : List Nat) (p : Nat) (h : p < l.length) :
    l[p]? = some (l.getD p 0) := by
  rw [List.getD_eq_getElem?_getD, List.getElem?_eq_getElem h]
  rfl

theorem set_eq_self_of_getElem? (l : List Nat) (p a : Nat) (h : l[p]? = some a) :
    l.set p a = l := by
  apply List.ext_getElem?
  intro n
  by_cases hn : n = p
  · subst hn
    rw [List.getElem?_set_self (by
      rcases List.getElem?_eq_some_iff.mp h with ⟨hlt, _⟩
      exact hlt), h]
  · rw [List.getElem?_set_ne (fun hc => hn hc.symm)]

theorem set_inj_of_getElem? (l1 l2 : List Nat) (p a : Nat)
    (h1 : l1[p]? = l2[p]?) (hs : l1.set p a = l2.set p a) : l1 = l2 := by
  apply List.ext_getElem?
  intro n
  by_cases hn : n = p
  · subst hn
    exact h1
  · have := congrArg (fun l => l[n]?) hs
    simpa [List.getElem?_set_ne (fun hc => hn hc.symm)] using this

theorem assocLookup_of_mem {α β : Type} [DecidableEq α]
    (l : List (α × β)) (e : α × β) (he : e ∈ l) (hn : (l.map Prod.fst).Nodup) :
    assocLookup e.1 l = some e.2 := by
  induction l with
  | nil => exact absurd he (by simp)
  | cons h t ih =>
    rw [List.map_cons, List.nodup_cons] at hn
    rcases List.mem_cons.mp he with rfl | he2
    · rw [assocLookup, if_pos rfl]
    · rw [assocLookup, if_neg ?hne]
      case hne =>
        intro hc
        exact hn.1 (hc ▸ List.mem_map_of_mem Prod.fst he2)
      exact ih he2 hn.2

theorem assocLookup_none_of_ne {α β : Type} [DecidableEq α]
    (k : α) (l : List (α × β)) (h : ∀ e ∈ l, e.1 ≠ k) :
    assocLookup k l = none := by
  induction l with
  | nil => rfl
  | cons e t ih =>
    rw [assocLookup, if_neg (h e (by simp))]
    exact ih (fun x hx => h x (List.mem_cons_of_mem _ hx))

theorem assocLookup_flatten_none {α β : Type} [DecidableEq α]
    (k : α) (Ls : List (List (α × β))) (h : ∀ l ∈ Ls, assocLookup k l = none) :
    assocLookup k Ls.flatten = none := by
  induction Ls with
  | nil => rfl
  | cons L Ls ih =>
    rw [List.flatten_cons, assocLookup_append_none _ _ _ (h L (by simp))]
    exact ih (fun l hl => h l (List.mem_cons_of_mem _ hl))

theorem assocLookup_flatten_hit {α β : Type} [DecidableEq α]
    (k : α) (v : β) (Ls : List (List (α × β))) (i : Nat) (hi : i < Ls.length)
    (hhit : assocLookup k Ls[i] = some v)
    (hmiss : ∀ j, (hj : j < Ls.length) → j ≠ i → assocLookup k Ls[j] = none) :
    assocLookup k Ls.flatten = some v := by
  induction Ls generalizing i with
  | nil => simp at hi
  | cons L Ls ih =>
    rw [List.flatten_cons]
    cases i with
    | zero => exact assocLookup_append_some _ _ _ _ hhit
    | succ n =>
      have h0 := hmiss 0 (by simp) (by simp)
      rw [List.getElem_cons_zero] at h0
      rw [assocLookup_append_none _ _ _ h0]
      refine ih n (by simpa using Nat.lt_of_succ_lt_succ hi) ?_ ?_
      · simpa using hhit
      · intro j hj hne
        have := hmiss (j + 1) (by simpa using Nat.succ_lt_succ hj)
          (fun hc => hne (Nat.succ_injective hc))
        simpa using this

theorem assocLookup_flatten_head {α β : Type} [DecidableEq α]
    (k : α) (L : List (α × β)) (Ls : List (List (α × β)))
    (hmiss : ∀ l ∈ Ls, assocLookup k l = none) :
    assocLookup k (L :: Ls).flatten = assocLookup k L := by
  rw [List.flatten_cons]
  cases h : assocLookup k L with
  | some v => exact assocLookup_append_some _ _ _ _ h
  | none =>
    rw [assocLookup_append_none _ _ _ h]
    exact assocLookup_flatten_none k Ls hmiss

theorem contains_none_map_some {α β : Type} [DecidableEq β] (l : List α)
    (g : α → β) : (l.map fun a => some (g a)).contains none = false := by
  induction l with
  | nil => rfl
  | cons a t ih =>
    simp only [List.map_cons, List.contains_cons, ih, Bool.or_false]
    rfl

theorem reduceOption_map_some {α β : Type} (l : List α) (g : α → β) :
    (l.map fun a => some (g a)).reduceOption = l.map g := by
  rw [List.reduceOption, List.filterMap_map]
  exact List.filterMap_eq_map g ▸ rfl

theorem strictlyIncreasing_iff_chain (l : List Int) :
    strictlyIncreasing l = true ↔ l.Chain' (· < ·) := by
  induction l with
  | nil => simp [strictlyIncreasing]
  | cons a t ih =>
    cases t with
    | nil => simp [strictlyIncreasing]
    | cons b t2 =>
      rw [strictlyIncreasing, Bool.and_eq_true, ih, List.chain'_cons,
        decide_eq_true_eq]

theorem strictlyIncreasing_map_cast (l : List Nat) (h : l.Chain' (· < ·)) :
    strictlyIncreasing (l.map fun i => (i : Int)) = true := by
  induction l with
  | nil => rfl
  | cons a t ih =>
    cases t with
    | nil => rfl
    | cons b t2 =>
      rw [List.chain'_cons] at h
      simp only [List.map_cons, strictlyIncreasing, Bool.and_eq_true,
        decide_eq_true_eq]
      refine ⟨Int.ofNat_lt.mpr h.1, ?_⟩
      have := ih h.2
      simpa [List.map_cons] using this

theorem strictlyIncreasing_range_cast (n : Nat) :
    strictlyIncreasing ((List.range n).map fun i => (i : Int)) = true :=
  strictlyIncreasing_map_cast _ (List.Pairwise.chain' (List.pairwise_lt_range n))

/-- Wellformedness of one chunk against the shared variable table: its
variable is declared, its grid coordinates are as long as the dimension
list, and its coordinate along the concatenation dimension (when the
variable has it) is 0 — i.e. the file holds a single slab. -/
def chunkWF (concatDim : String) (vars : List (String × VariableSchema))
    (c : (String × List Nat) × ChunkRef) : Bool :=
  match assocLookup c.1.1 vars with
  | none => false
  | some sch =>
      c.1.2.length == sch.dims.length
        && match dimIndex concatDim sch.dims with
           | some p => c.1.2.getD p 0 == 0
           | none => true

/-- Single-slab shape of one variable: along the concatenation dimension
both size and chunk shape are 1, and the size list matches the dimension
list in length. -/
def slabVar (concatDim : String) (vs : String × VariableSchema) : Bool :=
  vs.2.sizes.length == vs.2.dims.length
    && match dimIndex concatDim vs.2.dims with
       | some p => vs.2.sizes.getD p 0 == 1 && vs.2.chunkShape.getD p 0 == 1
       | none => true

theorem chunkWF_spec (concatDim : String) (vars : List (String × VariableSchema))
    (c : (String × List Nat) × ChunkRef) (h : chunkWF concatDim vars c = true) :
    ∃ sch, assocLookup c.1.1 vars = some sch
      ∧ c.1.2.length = sch.dims.length
      ∧ ∀ p, dimIndex concatDim sch.dims = some p → c.1.2.getD p 0 = 0 := by
  unfold chunkWF at h
  cases hlk : assocLookup c.1.1 vars with
  | none =>
    rw [hlk] at h
    exact absurd h (by simp)
  | some sch =>
    rw [hlk] at h
    simp only [Bool.and_eq_true, beq_iff_eq] at h
    obtain ⟨h1, h2⟩ := h
    refine ⟨sch, rfl, h1, ?_⟩
    intro p hp
    rw [hp] at h2
    simpa using h2

theorem slabVar_spec (concatDim : String) (vs : String × VariableSchema)
    (h : slabVar concatDim vs = true) :
    vs.2.sizes.length = vs.2.dims.length
      ∧ ∀ p, dimIndex concatDim vs.2.dims = some p →
          vs.2.sizes.getD p 0 = 1 ∧ vs.2.chunkShape.getD p 0 = 1 := by
  unfold slabVar at h
  simp only [Bool.and_eq_true, beq_iff_eq] at h
  obtain ⟨h1, h2⟩ := h
  refine ⟨h1, ?_⟩
  intro p hp
  rw [hp] at h2
  simpa using h2

theorem rekeyChunk_concat (concatDim : String) (vars : List (String × VariableSchema))
    (i : Nat) (c : (String × List Nat) × ChunkRef) (sch : VariableSchema) (p : Nat)
    (hlk : assocLookup c.1.1 vars = some sch)
    (hp : dimIndex concatDim sch.dims = some p) :
    rekeyChunk concatDim vars i c
      = ((c.1.1, c.1.2.set p (c.1.2.getD p 0 + i)), c.2) := by
  unfold rekeyChunk
  rw [hlk, Option.some_bind, hp]

theorem rekeyChunk_nonconcat (concatDim : String) (vars : List (String × VariableSchema))
    (i : Nat) (c : (String × List Nat) × ChunkRef)
    (h : ((assocLookup c.1.1 vars).bind fun sch => dimIndex concatDim sch.dims) = none) :
    rekeyChunk concatDim vars i c = c := by
  unfold rekeyChunk
  rw [h]

theorem rekeyChunk_fst_var (concatDim : String) (vars : List (String × VariableSchema))
    (i : Nat) (c : (String × List Nat) × ChunkRef) :
    (rekeyChunk concatDim vars i c).1.1 = c.1.1 := by
  unfold rekeyChunk
  split <;> rfl

theorem rekey_key_inj (concatDim : String) (vars : List (String × VariableSchema))
    (i : Nat) (c d : (String × List Nat) × ChunkRef)
    (hc : chunkWF concatDim vars c = true) (hd : chunkWF concatDim vars d = true)
    (heq : (rekeyChunk concatDim vars i c).1 = (rekeyChunk concatDim vars i d).1) :
    c.1 = d.1 := by
  obtain ⟨schc, hlkc, hlenc, hzc⟩ := chunkWF_spec _ _ _ hc
  obtain ⟨schd, hlkd, hlend, hzd⟩ := chunkWF_spec _ _ _ hd
  have hv : c.1.1 = d.1.1 := by
    rw [← rekeyChunk_fst_var concatDim vars i c, ← rekeyChunk_fst_var concatDim vars i d,
      heq]
  rw [hv, hlkd] at hlkc
  have hsch : schc = schd := by
    injection hlkc with h2
    exact h2.symm
  subst hsch
  cases hdim : dimIndex concatDim schc.dims with
  | none =>
    have e1 : rekeyChunk concatDim vars i c = c := by
      refine rekeyChunk_nonconcat _ _ _ _ ?_
      rw [hv, hlkd, Option.some_bind, hdim]
    have e2 : rekeyChunk concatDim vars i d = d := by
      refine rekeyChunk_nonconcat _ _ _ _ ?_
      rw [hlkd, Option.some_bind, hdim]
    rw [e1, e2] at heq
    exact heq
  | some p =>
    have e1 := rekeyChunk_concat concatDim vars i c schc p (by rw [hv, hlkd]) hdim
    have e2 := rekeyChunk_concat concatDim vars i d schc p hlkd hdim
    rw [e1, e2] at heq
    have hcoords : c.1.2.set p (c.1.2.getD p 0 + i) = d.1.2.set p (d.1.2.getD p 0 + i) :=
      congrArg Prod.snd heq
    have hc0 : c.1.2.getD p 0 = 0 := hzc p hdim
    have hd0 : d.1.2.getD p 0 = 0 := hzd p hdim
    rw [hc0, hd0] at hcoords
    have hplt_c : p < c.1.2.length := by
      rw [hlenc]
      exact dimIndex_lt_length _ _ _ hdim
    have hplt_d : p < d.1.2.length := by
      rw [hlend]
      exact dimIndex_lt_length _ _ _ hdim
    have h1 : c.1.2[p]? = some 0 := by
      rw [getElem?_eq_some_getD _ _ hplt_c, hc0]
    have h2 : d.1.2[p]? = some 0 := by
      rw [getElem?_eq_some_getD _ _ hplt_d, hd0]
    have := set_inj_of_getElem? c.1.2 d.1.2 p (0 + i) (h1.trans h2.symm) hcoords
    exact Prod.ext hv this

theorem rekeyChunk_zero (concatDim : String) (vars : List (String × VariableSchema))
    (c : (String × List Nat) × ChunkRef) (h : chunkWF concatDim vars c = true) :
    rekeyChunk concatDim vars 0 c = c := by
  obtain ⟨sch, hlk, hlen, hz⟩ := chunkWF_spec _ _ _ h
  cases hdim : dimIndex concatDim sch.dims with
  | none =>
    refine rekeyChunk_nonconcat _ _ _ _ ?_
    rw [hlk, Option.some_bind, hdim]
  | some p =>
    rw [rekeyChunk_concat concatDim vars 0 c sch p hlk hdim, hz p hdim]
    have hplt : p < c.1.2.length := by
      rw [hlen]
      exact dimIndex_lt_length _ _ _ hdim
    rw [show (0 + 0 : Nat) = 0 from rfl,
      set_eq_self_of_getElem? _ _ _ (by rw [getElem?_eq_some_getD _ _ hplt, hz p hdim])]

theorem rekey_key_ne_cross (concatDim : String) (vars : List (String × VariableSchema))
    (i j : Nat) (hij : j ≠ i) (c d : (String × List Nat) × ChunkRef)
    (hc : chunkWF concatDim vars c = true) (hd : chunkWF concatDim vars d = true)
    (sch : VariableSchema) (p : Nat)
    (hlk : assocLookup c.1.1 vars = some sch)
    (hp : dimIndex concatDim sch.dims = some p) :
    (rekeyChunk concatDim vars j d).1 ≠ (c.1.1, c.1.2.set p i) := by
  intro heq
  obtain ⟨schd, hlkd, hlend, hzd⟩ := chunkWF_spec _ _ _ hd
  have hfst : d.1.1 = c.1.1 := by
    rw [← rekeyChunk_fst_var concatDim vars j d, heq]
  rw [hfst, hlk] at hlkd
  have hsch : schd = sch := by
    injection hlkd with h2
    exact h2.symm
  rw [hsch] at hlend hzd
  have e := rekeyChunk_concat concatDim vars j d sch p (by rw [hfst, hlk]) hp
  rw [e] at heq
  have hcoords : d.1.2.set p (d.1.2.getD p 0 + j) = c.1.2.set p i :=
    congrArg Prod.snd heq
  rw [hzd p hp, Nat.zero_add] at hcoords
  have hplt_d : p < d.1.2.length := by
    rw [hlend]
    exact dimIndex_lt_length _ _ _ hp
  have l1 : (d.1.2.set p j)[p]? = some j :=
    List.getElem?_set_self (by simpa using hplt_d)
  obtain ⟨schc, hlkc, hlenc, hzc⟩ := chunkWF_spec _ _ _ hc
  rw [hlk] at hlkc
  have hschc : schc = sch := by
    injection hlkc with h3
    exact h3.symm
  rw [hschc] at hlenc
  have hplt_c : p < c.1.2.length := by
    rw [hlenc]
    exact dimIndex_lt_length _ _ _ hp
  have l2 : (c.1.2.set p i)[p]? = some i :=
    List.getElem?_set_self (by simpa using hplt_c)
  rw [hcoords, l2] at l1
  refine hij ?_
  injection l1 with h4
  exact h4.symm

theorem assocLookup_block_hit (concatDim : String)
    (vars : List (String × VariableSchema)) (i : Nat)
    (chunks : List ((String × List Nat) × ChunkRef))
    (c : (String × List Nat) × ChunkRef)
    (sch : VariableSchema) (p : Nat)
    (hlk : assocLookup c.1.1 vars = some sch)
    (hp : dimIndex concatDim sch.dims = some p)
    (hc0 : c.1.2.getD p 0 = 0)
    (hc : c ∈ chunks)
    (hnodup : (chunks.map Prod.fst).Nodup)
    (hwf : ∀ x ∈ chunks, chunkWF concatDim vars x = true) :
    assocLookup (c.1.1, c.1.2.set p i)
      (chunks.map (rekeyChunk concatDim vars i)) = some c.2 := by
  have ekey : rekeyChunk concatDim vars i c = ((c.1.1, c.1.2.set p i), c.2) := by
    rw [rekeyChunk_concat concatDim vars i c sch p hlk hp, hc0, Nat.zero_add]
  induction chunks with
  | nil => exact absurd hc (by simp)
  | cons h t ih =>
    rw [List.map_cons, List.nodup_cons] at hnodup
    rcases List.mem_cons.mp hc with rfl | hct
    · rw [List.map_cons, ekey]
      exact assocLookup_cons_self _ _ _
    · rw [List.map_cons, assocLookup_cons_ne _ _ _ ?hne]
      case hne =>
        intro hkey
        have hck : h.1 = c.1 := by
          refine rekey_key_inj concatDim vars i h c (hwf h (by simp))
            (hwf c (List.mem_cons_of_mem _ hct)) ?_
          rw [ekey]
          exact hkey
        exact hnodup.1 (hck ▸ List.mem_map_of_mem Prod.fst hct)
      exact ih hct hnodup.2 (fun x hx => hwf x (List.mem_cons_of_mem _ hx))

theorem assocLookup_block_miss (concatDim : String)
    (vars : List (String × VariableSchema)) (i j : Nat) (hij : j ≠ i)
    (chunksj : List ((String × List Nat) × ChunkRef))
    (c : (String × List Nat) × ChunkRef)
    (sch : VariableSchema) (p : Nat)
    (hlk : assocLookup c.1.1 vars = some sch)
    (hp : dimIndex concatDim sch.dims = some p)
    (hcwf : chunkWF concatDim vars c = true)
    (hwfj : ∀ x ∈ chunksj, chunkWF concatDim vars x = true) :
    assocLookup (c.1.1, c.1.2.set p i)
      (chunksj.map (rekeyChunk concatDim vars j)) = none := by
  apply assocLookup_none_of_ne
  intro e he
  rcases List.mem_map.mp he with ⟨d, hd, rfl⟩
  exact rekey_key_ne_cross concatDim vars i j hij c d hcwf (hwfj d hd) sch p hlk hp

theorem dimSize_vars_slab (concatDim : String)
    (vars : List (String × VariableSchema))
    (hall : ∀ vs ∈ vars, slabVar concatDim vs = true)
    (hex : ∃ vs ∈ vars, (dimIndex concatDim vs.2.dims).isSome = true) :
    (vars.filterMap fun vs =>
      (dimIndex concatDim vs.2.dims).bind fun q => vs.2.sizes.get? q).head?
      = some 1 := by
  induction vars with
  | nil => simp at hex
  | cons v t ih =>
    cases hd : dimIndex concatDim v.2.dims with
    | some q =>
      obtain ⟨hlen, hq⟩ := slabVar_spec concatDim v (hall v (by simp))
      obtain ⟨hsz, _⟩ := hq q hd
      have hqlt : q < v.2.sizes.length := by
        rw [hlen]
        exact dimIndex_lt_length _ _ _ hd
      have hget : v.2.sizes.get? q = some 1 := by
        rw [List.get?_eq_getElem?, getElem?_eq_some_getD _ _ hqlt, hsz]
      rw [List.filterMap_cons]
      simp only [hd, Option.some_bind, hget]
      rfl
    | none =>
      rw [List.filterMap_cons]
      simp only [hd, Option.none_bind]
      refine ih (fun vs hvs => hall vs (List.mem_cons_of_mem _ hvs)) ?_
      rcases hex with ⟨vs, hvs, hsome⟩
      rcases List.mem_cons.mp hvs with rfl | hvt
      · rw [hd] at hsome
        exact absurd hsome (by simp)
      · exact ⟨vs, hvt, hsome⟩

theorem foldl_add_ones {γ : Type} (L : List γ) (g : γ → Nat)
    (h : ∀ x ∈ L, g x = 1) :
    ∀ acc, L.foldl (fun a x => a + g x) acc = acc + L.length := by
  induction L with
  | nil => intro acc; simp
  | cons x t ih =>
    intro acc
    rw [List.foldl_cons, h x (by simp),
      ih (fun y hy => h y (List.mem_cons_of_mem _ hy)) (acc + 1)]
    simp
    omega

/-- C1: combining K ≥ 1 single-slab per-file indexes whose derived
concatenation coordinates are `[0, 1, ..., K-1]` in file-list order
succeeds with no order warning; the injected coordinate variable holds
exactly those values in order; every variable carrying the concatenation
dimension gets chunk-grid size K along it (size K, chunk shape 1); the
merged chunk at grid position i along that dimension is exactly file i's
chunk at position 0; and identical-dimension variables keep their schema
and their chunk map verbatim from the first file. -/
theorem combine_concat_slabs
    (concatDim : String) (identicalDims : List String)
    (rule : Nat → String → ReferenceIndex → Option Int)
    (p0 : String) (f0 : ReferenceIndex) (rest : List (String × ReferenceIndex))
    (hvars : ∀ pf ∈ (p0, f0) :: rest, pf.2.vars = f0.vars)
    (hnocv : assocLookup concatDim f0.vars = none)
    (hnames : (f0.vars.map Prod.fst).Nodup)
    (hslab : ∀ vs ∈ f0.vars, slabVar concatDim vs = true)
    (hwf : ∀ pf ∈ (p0, f0) :: rest, ∀ c ∈ pf.2.chunks,
        chunkWF concatDim f0.vars c = true)
    (hkeys : ∀ pf ∈ (p0, f0) :: rest, (pf.2.chunks.map Prod.fst).Nodup)
    (hval : validateIdentical identicalDims (((p0, f0) :: rest).map Prod.snd) = true)
    (hrule : deriveCoords rule ((p0, f0) :: rest)
        = (List.range (rest.length + 1)).map fun i => some (i : Int)) :
    ∃ merged, combine concatDim identicalDims rule ((p0, f0) :: rest)
        = Except.ok (merged, false)
      ∧ lookupChunk merged (concatDim, [0])
          = some (ChunkRef.inline
              ((List.range (rest.length + 1)).map fun i => (i : Int)))
      ∧ (∀ vs ∈ f0.vars, ∀ p, dimIndex concatDim vs.2.dims = some p →
          ∃ sch', assocLookup vs.1 merged.vars = some sch'
            ∧ sch'.sizes.getD p 0 = rest.length + 1
            ∧ sch'.chunkShape.getD p 0 = 1
            ∧ chunkGridSize (sch'.sizes.getD p 0) (sch'.chunkShape.getD p 0)
                = rest.length + 1)
      ∧ (∀ i, (hi : i < ((p0, f0) :: rest).length) →
          ∀ c ∈ (((p0, f0) :: rest).get ⟨i, hi⟩).2.chunks,
          ∀ sch p, assocLookup c.1.1 f0.vars = some sch →
            dimIndex concatDim sch.dims = some p →
            lookupChunk merged (c.1.1, c.1.2.set p i) = some c.2)
      ∧ (∀ vs ∈ f0.vars, dimIndex concatDim vs.2.dims = none →
          assocLookup vs.1 merged.vars = some vs.2
          ∧ ∀ coords : List Nat,
              lookupChunk merged (vs.1, coords) = lookupChunk f0 (vs.1, coords)) := by
  rw [combine, if_pos hval]
  rw [hrule]
  dsimp only
  rw [if_neg ?hcontains]
  case hcontains =>
    intro hcon
    rw [contains_none_map_some] at hcon
    exact absurd hcon (by simp)
  rw [reduceOption_map_some]
  rw [show (! strictlyIncreasing ((List.range (rest.length + 1)).map fun i => (i : Int)))
      = false by rw [strictlyIncreasing_range_cast]; rfl]
  refine ⟨_, rfl, ?_, ?_, ?_, ?_⟩
  · rw [lookupChunk]
    exact assocLookup_cons_self _ _ _
  · intro vs hvs p hp
    have htot : ((p0, f0) :: rest).foldl
        (fun acc pf => acc + (dimSize pf.2 concatDim).getD 0) 0
        = rest.length + 1 := by
      have hone : ∀ pf ∈ (p0, f0) :: rest, (dimSize pf.2 concatDim).getD 0 = 1 := by
        intro pf hpf
        have hds : dimSize pf.2 concatDim = some 1 := by
          rw [dimSize, hvars pf hpf]
          exact dimSize_vars_slab concatDim f0.vars hslab
            ⟨vs, hvs, by rw [hp]; rfl⟩
        rw [hds]
        rfl
      rw [foldl_add_ones _ _ hone 0]
      simp
    set total := ((p0, f0) :: rest).foldl
        (fun acc pf => acc + (dimSize pf.2 concatDim).getD 0) 0 with htotdef
    have hlkm : assocLookup vs.1
        ((f0.vars.map fun x => (x.1, mergeSchema concatDim total x.2))
          ++ [(concatDim,
              ⟨[concatDim], [((List.range (rest.length + 1)).map fun i => (i : Int)).length],
               [((List.range (rest.length + 1)).map fun i => (i : Int)).length], "i8", []⟩)])
        = some (mergeSchema concatDim total vs.2) := by
      apply assocLookup_append_some
      have hnodup2 : ((f0.vars.map fun x =>
          (x.1, mergeSchema concatDim total x.2)).map Prod.fst).Nodup := by
        rw [List.map_map,
          List.map_congr_left (fun x _ => (rfl :
            (Prod.fst ∘ fun x => (x.1, mergeSchema concatDim total x.2)) x = x.1))]
        exact hnames
      exact assocLookup_of_mem _ _ (List.mem_map_of_mem _ hvs) hnodup2
    obtain ⟨hlen, hq⟩ := slabVar_spec concatDim vs (hslab vs hvs)
    obtain ⟨hsz1, hcs1⟩ := hq p hp
    have hplt : p < vs.2.sizes.length := by
      rw [hlen]
      exact dimIndex_lt_length _ _ _ hp
    have hms : mergeSchema concatDim total vs.2
        = { vs.2 with sizes := vs.2.sizes.set p (rest.length + 1) } := by
      unfold mergeSchema
      rw [hp, htot]
    have h1 : (mergeSchema concatDim total vs.2).sizes.getD p 0 = rest.length + 1 := by
      rw [hms]
      simp only [List.getD_eq_getElem?_getD, List.getElem?_set_self hplt]
      rfl
    have h2 : (mergeSchema concatDim total vs.2).chunkShape.getD p 0 = 1 := by
      rw [hms]
      exact hcs1
    refine ⟨mergeSchema concatDim total vs.2, hlkm, h1, h2, ?_⟩
    rw [h1, h2]
    simp [chunkGridSize]
  · intro i hi c hc sch p hlk hp
    rw [List.get_eq_getElem] at hc
    have hne_cd : c.1.1 ≠ concatDim := by
      intro hcon
      rw [hcon, hnocv] at hlk
      exact absurd hlk (by simp)
    obtain ⟨sch2, hlk2, hlen2, hz2⟩ := chunkWF_spec _ _ _
      (hwf _ (List.getElem_mem hi) c hc)
    rw [hlk] at hlk2
    have hsch2 : sch2 = sch := by
      injection hlk2 with h3
      exact h3.symm
    rw [hsch2] at hz2
    have hc0 : c.1.2.getD p 0 = 0 := hz2 p hp
    rw [lookupChunk]
    rw [assocLookup_cons_ne _ _ _ ?hcne]
    case hcne =>
      intro hkey
      exact hne_cd (congrArg Prod.fst hkey).symm
    refine assocLookup_flatten_hit _ _ _ i ?_ ?_ ?_
    · rw [List.length_mapIdx]
      exact hi
    · rw [List.getElem_mapIdx]
      rw [hvars _ (List.getElem_mem hi)]
      split
      · exact assocLookup_block_hit concatDim f0.vars i _ c sch p hlk hp hc0 hc
          (hkeys _ (List.getElem_mem hi)) (hwf _ (List.getElem_mem hi))
      · refine assocLookup_block_hit concatDim f0.vars i _ c sch p hlk hp hc0
          (List.mem_filter.mpr ⟨hc, ?_⟩)
          (List.Nodup.sublist ((List.filter_sublist _).map Prod.fst)
            (hkeys _ (List.getElem_mem hi)))
          (fun x hx => hwf _ (List.getElem_mem hi) x (List.mem_filter.mp hx).1)
        rw [hasConcatDim, hlk, Option.some_bind, hp]
        rfl
    · intro j hj hne
      rw [List.length_mapIdx] at hj
      rw [List.getElem_mapIdx]
      rw [hvars _ (List.getElem_mem hj)]
      split
      · exact assocLookup_block_miss concatDim f0.vars i j hne _ c sch p hlk hp
          (hwf _ (List.getElem_mem hi) c hc) (hwf _ (List.getElem_mem hj))
      · exact assocLookup_block_miss concatDim f0.vars i j hne _ c sch p hlk hp
          (hwf _ (List.getElem_mem hi) c hc)
          (fun x hx => hwf _ (List.getElem_mem hj) x (List.mem_filter.mp hx).1)
  · intro vs hvs hnone
    have hlkvs : assocLookup vs.1 f0.vars = some vs.2 :=
      assocLookup_of_mem _ _ hvs hnames
    have hvs_ne : vs.1 ≠ concatDim := by
      intro hcon
      rw [hcon, hnocv] at hlkvs
      exact absurd hlkvs (by simp)
    have hms : ∀ total, mergeSchema concatDim total vs.2 = vs.2 := by
      intro total
      unfold mergeSchema
      rw [hnone]
    constructor
    · apply assocLookup_append_some
      have hnodup2 : ((f0.vars.map fun x =>
          (x.1, mergeSchema concatDim
            (((p0, f0) :: rest).foldl
              (fun acc pf => acc + (dimSize pf.2 concatDim).getD 0) 0) x.2)).map
          Prod.fst).Nodup := by
        rw [List.map_map,
          List.map_congr_left (fun x _ => (rfl : _ = x.1))]
        exact hnames
      have := assocLookup_of_mem _ _ (List.mem_map_of_mem
        (fun x => (x.1, mergeSchema concatDim
          (((p0, f0) :: rest).foldl
            (fun acc pf => acc + (dimSize pf.2 concatDim).getD 0) 0) x.2)) hvs) hnodup2
      dsimp only at this
      rw [hms] at this
      exact this
    · intro coords
      rw [lookupChunk, lookupChunk]
      rw [assocLookup_cons_ne _ _ _ ?hcne2]
      case hcne2 =>
        intro hkey
        exact hvs_ne (congrArg Prod.fst hkey).symm
      rw [List.mapIdx_cons]
      rw [assocLookup_flatten_head _ _ _ ?hmiss2]
      case hmiss2 =>
        intro l hl
        rcases List.mem_iff_getElem.mp hl with ⟨n, hn, rfl⟩
        rw [List.length_mapIdx] at hn
        rw [List.getElem_mapIdx]
        rw [if_neg (by simp)]
        rw [hvars _ (List.mem_cons_of_mem _ (List.getElem_mem hn))]
        apply assocLookup_none_of_ne
        intro e he
        rcases List.mem_map.mp he with ⟨d, hd, rfl⟩
        obtain ⟨hd_mem, hd_conc⟩ := List.mem_filter.mp hd
        intro hkey
        have hfst : d.1.1 = vs.1 := by
          rw [← rekeyChunk_fst_var concatDim f0.vars (n + 1) d, hkey]
        rw [hasConcatDim, hfst, hlkvs, Option.some_bind, hnone] at hd_conc
        exact absurd hd_conc (by simp)
      rw [if_pos (beq_self_eq_true 0)]
      rw [List.map_congr_left
        (fun x hx => rekeyChunk_zero concatDim f0.vars x (hwf (p0, f0) (by simp) x hx))]
      simp only [List.map_id']

/-- A concrete single-slab per-file index for the C1 witness: one data
variable on (time, y) with a single time slice, plus an identical-dims
coordinate variable `y`. -/
def slabIndex (uri : String) : ReferenceIndex :=
  ⟨[("T2", ⟨["time", "y"], [1, 2], [1, 2], "f4", []⟩),
    ("y", ⟨["y"], [2], [2], "f8", []⟩)],
   [(("T2", [0, 0]), ChunkRef.range uri 0 16),
    (("y", [0]), ChunkRef.inline [1, 2])],
   []⟩

/-- Witness for C1 at two concrete single-slab files. -/
theorem combine_concat_slabs_witness :
    ∃ merged, combine "time" ["y"] (fun i _ _ => some (i : Int))
        [("s3://b/f0.nc", slabIndex "s3://b/f0.nc"),
         ("s3://b/f1.nc", slabIndex "s3://b/f1.nc")]
        = Except.ok (merged, false)
      ∧ lookupChunk merged ("time", [0])
          = some (ChunkRef.inline
              ((List.range ([("s3://b/f1.nc", slabIndex "s3://b/f1.nc")].length + 1)).map
                fun i => (i : Int)))
      ∧ (∀ vs ∈ (slabIndex "s3://b/f0.nc").vars, ∀ p,
          dimIndex "time" vs.2.dims = some p →
          ∃ sch', assocLookup vs.1 merged.vars = some sch'
            ∧ sch'.sizes.getD p 0 = [("s3://b/f1.nc", slabIndex "s3://b/f1.nc")].length + 1
            ∧ sch'.chunkShape.getD p 0 = 1
            ∧ chunkGridSize (sch'.sizes.getD p 0) (sch'.chunkShape.getD p 0)
                = [("s3://b/f1.nc", slabIndex "s3://b/f1.nc")].length + 1)
      ∧ (∀ i, (hi : i < ([("s3://b/f0.nc", slabIndex "s3://b/f0.nc"),
            ("s3://b/f1.nc", slabIndex "s3://b/f1.nc")]).length) →
          ∀ c ∈ (([("s3://b/f0.nc", slabIndex "s3://b/f0.nc"),
            ("s3://b/f1.nc", slabIndex "s3://b/f1.nc")]).get ⟨i, hi⟩).2.chunks,
          ∀ sch p, assocLookup c.1.1 (slabIndex "s3://b/f0.nc").vars = some sch →
            dimIndex "time" sch.dims = some p →
            lookupChunk merged (c.1.1, c.1.2.set p i) = some c.2)
      ∧ (∀ vs ∈ (slabIndex "s3://b/f0.nc").vars, dimIndex "time" vs.2.dims = none →
          assocLookup vs.1 merged.vars = some vs.2
          ∧ ∀ coords : List Nat,
              lookupChunk merged (vs.1, coords)
                = lookupChunk (slabIndex "s3://b/f0.nc") (vs.1, coords)) :=
  combine_concat_slabs "time" ["y"] (fun i _ _ => some (i : Int))
    "s3://b/f0.nc" (slabIndex "s3://b/f0.nc")
    [("s3://b/f1.nc", slabIndex "s3://b/f1.nc")]
    (by decide) (by decide) (by decide) (by decide) (by decide) (by decide)
    (by decide) (by decide)

/-! ## Claim C6: the persisted document format round-trips -/

/-- Modelled from the spec: the serialized structured document
(conceptually JSON) that a ReferenceIndex is persisted as. -/
inductive Doc where
  | str (s : String)
  | num (n : Nat)
  | int (z : Int)
  | arr (elts : List Doc)
  | obj (kvs : List (String × Doc))

/-- The character of one decimal digit. -/
def digitChar : Nat → Char
  | 0 => '0' | 1 => '1' | 2 => '2' | 3 => '3' | 4 => '4'
  | 5 => '5' | 6 => '6' | 7 => '7' | 8 => '8' | 9 => '9'
  | _ => '*'

theorem dval_digitChar (d : Nat) (h : d < 10) : dval (digitChar d) = d := by
  interval_cases d <;> rfl

theorem isDigitB_digitChar (d : Nat) (h : d < 10) : isDigitB (digitChar d) = true := by
  interval_cases d <;> rfl

/-- Decimal numeral of a natural number, most significant digit first. -/
def natToChars (n : Nat) : List Char :=
  if n = 0 then ['0'] else ((Nat.digits 10 n).map digitChar).reverse

/-- Value of a decimal numeral, most significant digit first. -/
def charsToNat (cs : List Char) : Nat :=
  Nat.ofDigits 10 ((cs.map dval).reverse)

theorem map_self_of_forall {α : Type} (l : List α) (f : α → α)
    (h : ∀ a ∈ l, f a = a) : l.map f = l := by
  induction l with
  | nil => rfl
  | cons x t ih =>
    rw [List.map_cons, h x (by simp),
      ih (fun y hy => h y (List.mem_cons_of_mem _ hy))]

theorem charsToNat_natToChars (n : Nat) : charsToNat (natToChars n) = n := by
  by_cases h0 : n = 0
  · subst h0
    rfl
  · rw [natToChars, if_neg h0, charsToNat, List.map_reverse, List.reverse_reverse,
      List.map_map,
      map_self_of_forall (Nat.digits 10 n) (dval ∘ digitChar)
        (fun d hd => dval_digitChar d (Nat.digits_lt_base (by norm_num) hd))]
    exact Nat.ofDigits_digits 10 n

theorem natToChars_digits (n : Nat) : ∀ c ∈ natToChars n, isDigitB c = true := by
  intro c hc
  rw [natToChars] at hc
  split at hc
  · simp at hc
    subst hc
    rfl
  · rw [List.mem_reverse] at hc
    rcases List.mem_map.mp hc with ⟨d, hd, rfl⟩
    exact isDigitB_digitChar d (Nat.digits_lt_base (by norm_num) hd)

/-- Split at every occurrence of one separator character. -/
def splitChar (sep : Char) : List Char → List (List Char)
  | [] => [[]]
  | c :: rest =>
      if c = sep then [] :: splitChar sep rest
      else
        match splitChar sep rest with
        | [] => [[c]]
        | p :: ps => (c :: p) :: ps

/-- Join with one separator character. -/
def intercalateChar (sep : Char) : List (List Char) → List Char
  | [] => []
  | [x] => x
  | x :: y :: xs => x ++ sep :: intercalateChar sep (y :: xs)

theorem splitChar_no_sep (sep : Char) (x : List Char) (h : sep ∉ x) :
    splitChar sep x = [x] := by
  induction x with
  | nil => rfl
  | cons c rest ih =>
    rw [splitChar, if_neg (fun hc => h (by rw [hc]; simp)),
      ih (fun hc => h (List.mem_cons_of_mem _ hc))]

theorem splitChar_append_sep (sep : Char) (x t : List Char) (h : sep ∉ x) :
    splitChar sep (x ++ sep :: t) = x :: splitChar sep t := by
  induction x with
  | nil =>
    rw [List.nil_append, splitChar, if_pos rfl]
  | cons c rest ih =>
    rw [List.cons_append, splitChar, if_neg (fun hc => h (by rw [hc]; simp)),
      ih (fun hc => h (List.mem_cons_of_mem _ hc))]

theorem splitChar_intercalate (sep : Char) (parts : List (List Char))
    (hne : parts ≠ []) (hsep : ∀ part ∈ parts, sep ∉ part) :
    splitChar sep (intercalateChar sep parts) = parts := by
  induction parts with
  | nil => exact absurd rfl hne
  | cons x xs ih =>
    cases xs with
    | nil =>
      rw [intercalateChar, splitChar_no_sep sep x (hsep x (by simp))]
    | cons y ys =>
      rw [intercalateChar, splitChar_append_sep sep x _ (hsep x (by simp)),
        ih (by simp) (fun part hp => hsep part (List.mem_cons_of_mem _ hp))]

theorem mem_intercalate (sep : Char) (parts : List (List Char)) (c : Char)
    (hc : c ∈ intercalateChar sep parts) : c = sep ∨ ∃ part ∈ parts, c ∈ part := by
  induction parts with
  | nil => exact absurd hc (by simp [intercalateChar])
  | cons x xs ih =>
    cases xs with
    | nil =>
      rw [intercalateChar] at hc
      exact Or.inr ⟨x, by simp, hc⟩
    | cons y ys =>
      rw [intercalateChar] at hc
      rcases List.mem_append.mp hc with h | h
      · exact Or.inr ⟨x, by simp, h⟩
      · rcases List.mem_cons.mp h with rfl | h2
        · exact Or.inl rfl
        · rcases ih h2 with h3 | ⟨part, hp, hcp⟩
          · exact Or.inl h3
          · exact Or.inr ⟨part, List.mem_cons_of_mem _ hp, hcp⟩

/-- The string encoding `"var/i.j.k"` of one chunk key, as in the spec's
document format. -/
def encodeKey (key : String × List Nat) : String :=
  ⟨key.1.data ++ '/' :: intercalateChar '.' (key.2.map natToChars)⟩

/-- Decoding of a string-encoded chunk key. -/
def decodeKey (s : String) : Option (String × List Nat) :=
  match splitChar '/' s.data with
  | [vchars, cchars] => some (⟨vchars⟩, (splitChar '.' cchars).map charsToNat)
  | _ => none

theorem decodeKey_encodeKey (key : String × List Nat)
    (hslash : '/' ∉ key.1.data) (hne : key.2 ≠ []) :
    decodeKey (encodeKey key) = some key := by
  rw [encodeKey, decodeKey]
  have hnoslash : '/' ∉ intercalateChar '.' (key.2.map natToChars) := by
    intro hc
    rcases mem_intercalate _ _ _ hc with h | ⟨part, hp, hcp⟩
    · exact absurd h (by decide)
    · rcases List.mem_map.mp hp with ⟨n, _, rfl⟩
      exact digit_ne_slash _ (natToChars_digits n _ hcp) rfl
  rw [show (String.mk (key.1.data ++ '/'
      :: intercalateChar '.' (key.2.map natToChars))).data
      = key.1.data ++ '/' :: intercalateChar '.' (key.2.map natToChars) from rfl]
  rw [splitChar_append_sep _ _ _ hslash,
    splitChar_no_sep _ _ hnoslash]
  dsimp only
  rw [splitChar_intercalate _ _ (by simpa using hne) ?hdot]
  case hdot =>
    intro part hp hc
    rcases List.mem_map.mp hp with ⟨n, _, rfl⟩
    exact digit_ne_dot _ (natToChars_digits n _ hc) rfl
  rw [List.map_map,
    map_self_of_forall key.2 (charsToNat ∘ natToChars)
      (fun n _ => charsToNat_natToChars n)]

/-- A ChunkRef as document data: a byte-range reference is the spec's
3-element array `[uri, offset, length]`; inline data an array of values. -/
def encodeChunkRef : ChunkRef → Doc
  | ChunkRef.range uri off len => Doc.arr [Doc.str uri, Doc.num off, Doc.num len]
  | ChunkRef.inline data => Doc.arr (data.map Doc.int)

/-- Inverse of `encodeChunkRef`. -/
def decodeChunkRef : Doc → Option ChunkRef
  | Doc.arr [Doc.str uri, Doc.num off, Doc.num len] =>
      some (ChunkRef.range uri off len)
  | Doc.arr ds =>
      (ds.mapM fun d =>
        match d with
        | Doc.int z => some z
        | _ => none).map ChunkRef.inline
  | _ => none

theorem mapM_dec_enc {α β : Type} (dec : β → Option α) (enc : α → β)
    (l : List α) (h : ∀ a ∈ l, dec (enc a) = some a) :
    (l.map enc).mapM dec = some l := by
  induction l with
  | nil => rfl
  | cons a t ih =>
    rw [List.map_cons, List.mapM_cons, h a (by simp),
      ih (fun x hx => h x (List.mem_cons_of_mem _ hx))]
    rfl

theorem decodeChunkRef_encodeChunkRef (r : ChunkRef) :
    decodeChunkRef (encodeChunkRef r) = some r := by
  cases r with
  | range uri off len => rfl
  | inline data =>
    rw [encodeChunkRef]
    cases data with
    | nil => rfl
    | cons z zs =>
      cases zs with
      | nil => rfl
      | cons z2 zs2 =>
        cases zs2 with
        | nil => rfl
        | cons z3 zs3 =>
          rw [decodeChunkRef,
            mapM_dec_enc _ Doc.int (z :: z2 :: z3 :: zs3) (fun a _ => rfl)]
          · rfl
          · intro uri off len heq
            simp at heq

/-- A VariableSchema as document data. -/
def encodeSchema (sch : VariableSchema) : Doc :=
  Doc.arr [Doc.arr (sch.dims.map Doc.str), Doc.arr (sch.sizes.map Doc.num),
    Doc.arr (sch.chunkShape.map Doc.num), Doc.str sch.dtype,
    Doc.arr (sch.attrs.map fun kv => Doc.arr [Doc.str kv.1, Doc.str kv.2])]

/-- One string from document data. -/
def decStr : Doc → Option String
  | Doc.str s => some s
  | _ => none

/-- One natural number from document data. -/
def decNat : Doc → Option Nat
  | Doc.num n => some n
  | _ => none

/-- One attribute pair from document data. -/
def decAttr : Doc → Option (String × String)
  | Doc.arr [Doc.str k, Doc.str v] => some (k, v)
  | _ => none

/-- Inverse of `encodeSchema`. -/
def decodeSchema : Doc → Option VariableSchema
  | Doc.arr [Doc.arr ds, Doc.arr szs, Doc.arr cs, Doc.str dt, Doc.arr ats] =>
      (ds.mapM decStr).bind fun dims =>
        (szs.mapM decNat).bind fun sizes =>
          (cs.mapM decNat).bind fun chunkShape =>
            (ats.mapM decAttr).map fun attrs =>
              ⟨dims, sizes, chunkShape, dt, attrs⟩
  | _ => none

theorem decodeSchema_encodeSchema (sch : VariableSchema) :
    decodeSchema (encodeSchema sch) = some sch := by
  rw [encodeSchema, decodeSchema,
    mapM_dec_enc decStr Doc.str sch.dims (fun a _ => rfl),
    mapM_dec_enc decNat Doc.num sch.sizes (fun a _ => rfl),
    mapM_dec_enc decNat Doc.num sch.chunkShape (fun a _ => rfl),
    mapM_dec_enc decAttr (fun kv => Doc.arr [Doc.str kv.1, Doc.str kv.2]) sch.attrs
      (fun a _ => rfl)]
  rfl

/-- Modelled from the spec: persisting a ReferenceIndex as its serialized
document — format version, the `refs` mapping from string-encoded chunk
key to reference data, the variable schemas, and the free-form attribute
mapping. -/
def serialize (idx : ReferenceIndex) : Doc :=
  Doc.obj
    [("version", Doc.num 1),
     ("refs", Doc.obj (idx.chunks.map fun c => (encodeKey c.1, encodeChunkRef c.2))),
     ("vars", Doc.obj (idx.vars.map fun vs => (vs.1, encodeSchema vs.2))),
     ("attrs", Doc.arr (idx.attrs.map fun kv => Doc.arr [Doc.str kv.1, Doc.str kv.2]))]

/-- Modelled from the spec: re-loading a persisted ReferenceIndex
document. -/
def deserialize : Doc → Option ReferenceIndex
  | Doc.obj [("version", Doc.num 1), ("refs", Doc.obj refs),
      ("vars", Doc.obj vars), ("attrs", Doc.arr ats)] =>
      (refs.mapM fun kv => (decodeKey kv.1).bind fun key =>
          (decodeChunkRef kv.2).map fun r => (key, r)).bind fun chunks =>
        (vars.mapM fun kv => (decodeSchema kv.2).map fun sch =>
            (kv.1, sch)).bind fun vlist =>
          (ats.mapM decAttr).map fun alist => ⟨vlist, chunks, alist⟩
  | _ => none

/-- Keys an index must have for the string key encoding to be faithful:
no `'/'` in a variable name, no empty coordinate tuple. -/
def wellFormedKeys (idx : ReferenceIndex) : Bool :=
  idx.chunks.all fun c => decide ('/' ∉ c.1.1.data) && !c.1.2.isEmpty

/-- C6: persisting a ReferenceIndex to the serialized document format and
re-loading it yields a structurally identical index — the same variable
schemas, the same chunk-key-to-ChunkRef mapping, the same dataset-level
attributes. -/
theorem serialize_roundtrip (idx : ReferenceIndex)
    (h : wellFormedKeys idx = true) :
    deserialize (serialize idx) = some idx := by
  rw [serialize, deserialize]
  rw [mapM_dec_enc _ _ idx.chunks ?hchunk]
  case hchunk =>
    intro c hc
    have hcwf := List.all_eq_true.mp h c hc
    simp only [Bool.and_eq_true, decide_eq_true_eq, Bool.not_eq_true',
      List.isEmpty_eq_false] at hcwf
    rw [decodeKey_encodeKey c.1 hcwf.1 hcwf.2, Option.some_bind,
      decodeChunkRef_encodeChunkRef, Option.map_some']
  rw [Option.some_bind,
    mapM_dec_enc _ _ idx.vars
      (fun vs _ => by rw [decodeSchema_encodeSchema, Option.map_some']),
    Option.some_bind,
    mapM_dec_enc decAttr (fun kv => Doc.arr [Doc.str kv.1, Doc.str kv.2]) idx.attrs
      (fun a _ => rfl)]
  rfl

/-- Witness for C6 at the concrete `sampleIndex`. -/
theorem serialize_roundtrip_witness :
    deserialize (serialize sampleIndex) = some sampleIndex :=
  serialize_roundtrip sampleIndex (by decide)
